import Mathlib

/-!
Shallow embedding of the field-extraction engine in app/ocr_utils.py.

Text is modelled as a list of characters.  Each regular-expression pattern of
the source is hand-compiled into a dedicated scanner function whose structure
mirrors the semantics of the Python re module on that pattern (leftmost match,
ordered alternation, greedy and lazy quantifiers with chronological
backtracking, IGNORECASE and MULTILINE where the source passes those flags).
Character classes are the Python Unicode classes restricted to the ASCII plus
Thai alphabet that this application processes.  datetime.now().year is passed
in as an explicit parameter nowYearAD.  Dictionaries keep their insertion
order, as in Python.
-/

namespace Ocr

abbrev Chars := List Char

/-- Coerce a string literal to the character-list representation. -/
def S (s : String) : Chars := s.data

/-- Python re class \s : whitespace characters (ASCII part plus the Unicode
space characters). -/
def isSpacePy (c : Char) : Bool :=
  let n := c.toNat
  n == 32 || (9 ≤ n && n ≤ 13) || n == 0x1c || n == 0x1d || n == 0x1e || n == 0x1f ||
  n == 0x85 || n == 0xa0 || n == 0x1680 || (0x2000 ≤ n && n ≤ 0x200a) ||
  n == 0x2028 || n == 0x2029 || n == 0x202f || n == 0x205f || n == 0x3000

/-- Python re class \d : Unicode decimal digits, restricted to ASCII digits 0-9
and Thai digits U+0E50 to U+0E59. -/
def isDigitPy (c : Char) : Bool :=
  let n := c.toNat
  (48 ≤ n && n ≤ 57) || (0xe50 ≤ n && n ≤ 0xe59)

/-- ASCII digits 0-9 only. -/
def isAsciiDigit (c : Char) : Bool :=
  48 ≤ c.toNat && c.toNat ≤ 57

/-- Python letter characters (category L), restricted to ASCII letters and the
Thai letters of the Thai block: consonants U+0E01 to U+0E2E, the vowels
U+0E30, U+0E32, U+0E33, and U+0E40 to U+0E46.  Combining vowel and tone marks
(category Mn) are not letters. -/
def isAlphaPy (c : Char) : Bool :=
  let n := c.toNat
  (65 ≤ n && n ≤ 90) || (97 ≤ n && n ≤ 122) ||
  (0xe01 ≤ n && n ≤ 0xe2e) || n == 0xe30 || n == 0xe32 || n == 0xe33 ||
  (0xe40 ≤ n && n ≤ 0xe46)

/-- Python re word character \w : letters, digits and underscore. -/
def isWordPy (c : Char) : Bool :=
  isAlphaPy c || isDigitPy c || c == '_'

/-- Lookup table sending each ASCII lowercase letter to its uppercase form. -/
def azUp : List (Char × Char) :=
  [('a', 'A'), ('b', 'B'), ('c', 'C'), ('d', 'D'), ('e', 'E'), ('f', 'F'),
   ('g', 'G'), ('h', 'H'), ('i', 'I'), ('j', 'J'), ('k', 'K'), ('l', 'L'),
   ('m', 'M'), ('n', 'N'), ('o', 'O'), ('p', 'P'), ('q', 'Q'), ('r', 'R'),
   ('s', 'S'), ('t', 'T'), ('u', 'U'), ('v', 'V'), ('w', 'W'), ('x', 'X'),
   ('y', 'Y'), ('z', 'Z')]

/-- Python str.upper restricted to the alphabet in use: ASCII lowercase maps to
uppercase, every other character (including all Thai characters) is fixed. -/
def upChar (c : Char) : Char :=
  match azUp.find? (fun p => p.1 == c) with
  | some p => p.2
  | none => c

/-- Python str.lower restricted to the alphabet in use. -/
def loChar (c : Char) : Char :=
  match azUp.find? (fun p => p.2 == c) with
  | some p => p.1
  | none => c

/-- Case-insensitive character comparison, as under re.IGNORECASE. -/
def eqCI (a b : Char) : Bool := upChar a == upChar b

/-- Substring test: does the needle occur contiguously inside the haystack?
This is the semantics of re.search on an alternation of re.escape literals. -/
def subList (n h : Chars) : Bool := decide (n <:+: h)

/-- Prefix test for a literal at the current scan position. -/
def litAt : Chars → Chars → Bool
  | [], _ => true
  | _ :: _, [] => false
  | a :: as, b :: bs => a == b && litAt as bs

/-- Case-insensitive prefix test for a literal at the current scan position. -/
def litAtCI : Chars → Chars → Bool
  | [], _ => true
  | _ :: _, [] => false
  | a :: as, b :: bs => eqCI a b && litAtCI as bs

/-- Ordered alternation of literals at the current position: return the first
literal of the list (regex alternation order) matching here, case-insensitively. -/
def firstAltCI (lits : List Chars) (t : Chars) : Option Chars :=
  lits.find? (fun l => litAtCI l t)

/-- Python str.strip : drop whitespace from both ends. -/
def trimPy (l : Chars) : Chars :=
  ((l.dropWhile isSpacePy).reverse.dropWhile isSpacePy).reverse

/-- Descending list n, n-1, ..., 0 used to explore a greedy quantifier. -/
def downFrom (n : Nat) : List Nat := (List.range (n + 1)).reverse

/-- Ascending list 1, 2, ..., n used to explore a lazy plus quantifier. -/
def upTo1 (n : Nat) : List Nat := (List.range n).map (· + 1)

/-- The parse_thai_months dictionary of _find_date, in insertion order:
full Thai month names then the abbreviated forms. -/
def parse_thai_months : List (Chars × Nat) :=
  [(S "มกราคม", 1), (S "กุมภาพันธ์", 2), (S "มีนาคม", 3), (S "เมษายน", 4),
   (S "พฤษภาคม", 5), (S "มิถุนายน", 6), (S "กรกฎาคม", 7), (S "สิงหาคม", 8),
   (S "กันยายน", 9), (S "ตุลาคม", 10), (S "พฤศจิกายน", 11), (S "ธันวาคม", 12),
   (S "ม.ค.", 1), (S "ก.พ.", 2), (S "มี.ค.", 3), (S "เม.ย.", 4),
   (S "พ.ค.", 5), (S "มิ.ย.", 6), (S "ก.ค.", 7), (S "ส.ค.", 8),
   (S "ก.ย.", 9), (S "ต.ค.", 10), (S "พ.ย.", 11), (S "ธ.ค.", 12)]

/-- Month keys in dictionary order; this is the alternation order of the
month-year regular expression of _find_date. -/
def monthKeys : List Chars := parse_thai_months.map (·.1)

/-- The full_thai_months display list of _find_date. -/
def fullThaiMonths : List Chars :=
  [S "มกราคม", S "กุมภาพันธ์", S "มีนาคม", S "เมษายน", S "พฤษภาคม", S "มิถุนายน",
   S "กรกฎาคม", S "สิงหาคม", S "กันยายน", S "ตุลาคม", S "พฤศจิกายน", S "ธันวาคม"]

/-- Separator class [\s/.-] of the month-year pattern. -/
def isDateSep (c : Char) : Bool :=
  isSpacePy c || c == '/' || c == '.' || c == '-'

/-- Month-year pattern (month)[\s/.-]+(\d 2..4 times) anchored at the current
position: ordered alternation over the month keys, then at least one
separator, then a greedy run of two to four digits.  Returns the matched
month key and the year group. -/
def monthYearAt (t : Chars) : Option (Chars × Chars) :=
  match firstAltCI monthKeys t with
  | none => none
  | some key =>
    let rest := t.drop key.length
    let sep := rest.takeWhile isDateSep
    if sep.isEmpty then none
    else
      let rest2 := rest.drop sep.length
      let digs := (rest2.takeWhile isDigitPy).take 4
      if 2 ≤ digs.length then some (key, digs) else none

/-- Leftmost search for the month-year pattern; accumulates the text before
the match (the text_before_month slice of _find_date). -/
def monthYearSearchAux : Chars → Chars → Option (Chars × Chars × Chars)
  | acc, [] =>
    match monthYearAt [] with
    | some ky => some (acc.reverse, ky.1, ky.2)
    | none => none
  | acc, c :: rest =>
    match monthYearAt (c :: rest) with
    | some ky => some (acc.reverse, ky.1, ky.2)
    | none => monthYearSearchAux (c :: acc) rest

/-- re.search of the month-year pattern of _find_date: returns the text before
the match, the month group and the year group. -/
def monthYearSearch (t : Chars) : Option (Chars × Chars × Chars) :=
  monthYearSearchAux [] t

/-- Numeric date pattern of one or two digits, a slash-or-dash separator, one
or two digits, a slash-or-dash separator, and two to four digits, each group
captured, anchored at the current position, with the greedy-then-backtrack
order of the bounded quantifiers. -/
def numericDateAt (t : Chars) : Option (Chars × Chars × Chars) :=
  [2, 1].findSome? fun dl =>
    let d := t.take dl
    if d.length == dl && d.all isDigitPy then
      match t.drop dl with
      | c1 :: r1 =>
        if c1 == '/' || c1 == '-' then
          [2, 1].findSome? fun ml =>
            let m := r1.take ml
            if m.length == ml && m.all isDigitPy then
              match r1.drop ml with
              | c2 :: r2 =>
                if c2 == '/' || c2 == '-' then
                  let y := (r2.takeWhile isDigitPy).take 4
                  if 2 ≤ y.length then some (d, m, y) else none
                else none
              | [] => none
            else none
        else none
      | [] => none
    else none

/-- re.search of the numeric fallback date pattern of _find_date. -/
def numericDateSearch : Chars → Option (Chars × Chars × Chars)
  | [] => numericDateAt []
  | c :: rest =>
    match numericDateAt (c :: rest) with
    | some r => some r
    | none => numericDateSearch rest

/-- Is the first character of the remainder a word character (used for the
trailing word-boundary test)? -/
def nextIsWord : Chars → Bool
  | [] => false
  | c :: _ => isWordPy c

/-- re.findall of \b(\d 1..2)\b : all standalone one- or two-digit numbers, in
order, scanning left to right without overlap.  prev is the character before
the current position (none at the start of the string). -/
def findDaysAux : Option Char → Chars → List Chars
  | _, [] => []
  | prev, [c] =>
    let boundary := match prev with
      | none => true
      | some p => !(isWordPy p)
    if boundary && isDigitPy c then [[c]] else []
  | prev, c :: c2 :: rest2 =>
    let boundary := match prev with
      | none => true
      | some p => !(isWordPy p)
    if boundary && isDigitPy c then
      if isDigitPy c2 && !(nextIsWord rest2) then
        [c, c2] :: findDaysAux (some c2) rest2
      else if !(isWordPy c2) then
        [c] :: findDaysAux (some c) (c2 :: rest2)
      else
        findDaysAux (some c) (c2 :: rest2)
    else
      findDaysAux (some c) (c2 :: rest2)

/-- re.findall of \b(\d 1..2)\b over a whole string. -/
def findDays (t : Chars) : List Chars := findDaysAux none t

/-- Value of a single decimal digit character, ASCII or Thai. -/
def digitVal (c : Char) : Option Nat :=
  let n := c.toNat
  if 48 ≤ n && n ≤ 57 then some (n - 48)
  else if 0xe50 ≤ n && n ≤ 0xe59 then some (n - 0xe50)
  else none

/-- Python int() on a string of decimal digits; none models ValueError. -/
def toNatPy (l : Chars) : Option Nat :=
  if l.isEmpty then none
  else
    l.foldl
      (fun acc c =>
        match acc, digitVal c with
        | some a, some d => some (a * 10 + d)
        | _, _ => none)
      (some 0)

/-- The ten ASCII digit characters. -/
def digitChars : Chars := ['0', '1', '2', '3', '4', '5', '6', '7', '8', '9']

/-- Decimal digit character of a value below ten. -/
def digitChar (n : Nat) : Char := digitChars.getD n '0'

/-- Decimal representation of a natural number, accumulator style with fuel
(the fuel n + 1 always suffices). -/
def natReprFuel : Nat → Nat → Chars → Chars
  | 0, _, acc => acc
  | fuel + 1, n, acc =>
    if n < 10 then digitChar n :: acc
    else natReprFuel fuel (n / 10) (digitChar (n % 10) :: acc)

/-- Python str() of a nonnegative int, as used by the f-string of _find_date. -/
def natRepr (n : Nat) : Chars := natReprFuel (n + 1) n []

/-- Gregorian leap-year rule used by datetime. -/
def isLeapYear (y : Nat) : Bool :=
  y % 4 == 0 && (y % 100 != 0 || y % 400 == 0)

/-- Length of a month as in datetime. -/
def daysInMonth (y m : Nat) : Nat :=
  if m == 2 then (if isLeapYear y then 29 else 28)
  else if m == 4 || m == 6 || m == 9 || m == 11 then 30
  else 31

/-- Validity test of the datetime(year, month, day) constructor: year within
MINYEAR..MAXYEAR, month and day in calendar range. -/
def isValidDate (y m d : Nat) : Bool :=
  1 ≤ y && y ≤ 9999 && 1 ≤ m && m ≤ 12 && 1 ≤ d && d ≤ daysInMonth y m

/-- Month lookup loop of _find_date: first dictionary key that is a substring
of the month group, case-folded on both sides. -/
def monthLookup (mS : Chars) : Option Nat :=
  (parse_thai_months.find? (fun p => subList (p.1.map loChar) (mS.map loChar))).map (·.2)

/-- Body of the try block of _find_date: integer conversion of day and year,
century expansion of a two-digit year by the current Buddhist year, Buddhist
to Gregorian conversion above 2500, month resolution by int() or dictionary
lookup, range validation, datetime construction, and formatting as
day, full Thai month name, Buddhist-era year value.  none models any raised
exception. -/
def convertDMY (nowYearAD : Nat) (dS mS yS : Chars) : Option Chars :=
  match toNatPy dS, toNatPy yS with
  | some day, some yearBe0 =>
    let yearBe := if yS.length ≤ 2 then yearBe0 + (((nowYearAD + 543) / 100) * 100) else yearBe0
    let yearAd := if 2500 < yearBe then yearBe - 543 else yearBe
    match (match toNatPy mS with | some m => some m | none => monthLookup mS) with
    | none => none
    | some monthNum =>
      if 1 ≤ day && day ≤ 31 && 1 ≤ monthNum && monthNum ≤ 12 then
        if isValidDate yearAd monthNum day then
          some (natRepr day ++ ' ' :: (fullThaiMonths.getD (monthNum - 1) []) ++ ' ' :: natRepr yearBe)
        else none
      else none
  | _, _ => none

/-- Tail of _find_date: on success return the formatted date, on an exception
return the literal day month year concatenation when all three components are
nonempty strings, otherwise none. -/
def finishDate (nowYearAD : Nat) (dS mS yS : Chars) : Option Chars :=
  match convertDMY nowYearAD dS mS yS with
  | some s => some s
  | none =>
    if !dS.isEmpty && !mS.isEmpty && !yS.isEmpty then
      some (dS ++ ' ' :: mS ++ ' ' :: yS)
    else none

/-- The _find_date resolver: month-anchored phase with backward day search,
numeric fallback phase, conversion and formatting with the literal fallback. -/
def _find_date (nowYearAD : Nat) (t : Chars) : Option Chars :=
  match monthYearSearch t with
  | none =>
    match numericDateSearch t with
    | none => none
    | some (d, m, y) => finishDate nowYearAD d m y
  | some (before, mKey, y) =>
    match (findDays before).getLast? with
    | none => none
    | some d => finishDate nowYearAD d mKey y

/-- Captured groups of one regex match; none models an unmatched group. -/
abbrev MatchGroups := List (Option Chars)

/-- A compiled pattern is modelled by its search behaviour: the result of
re.search pattern text with the IGNORECASE and MULTILINE flags, reduced to
the list of captured groups, or none when the pattern does not match. -/
abbrev Pat := Chars → Option MatchGroups

/-- Inner loop of find_first_match: the first group that is truthy in Python,
that is, matched and nonempty. -/
def firstTruthyGroup : MatchGroups → Option Chars
  | [] => none
  | some g :: rest => if g.isEmpty then firstTruthyGroup rest else some g
  | none :: rest => firstTruthyGroup rest

/-- The find_first_match helper: try each pattern in order; when a pattern
matches, return the first nonempty captured group, stripped; when a pattern
matches but every group is empty or unmatched, fall through to the next
pattern; return none when the pattern list is exhausted. -/
def find_first_match (t : Chars) : List Pat → Option Chars
  | [] => none
  | p :: rest =>
    match p t with
    | none => find_first_match t rest
    | some gs =>
      match firstTruthyGroup gs with
      | some g => some (trimPy g)
      | none => find_first_match t rest

/-- Leftmost-match search combinator: apply an anchored matcher at every
position from the left and return its first success. -/
def scanFor (f : Chars → Option Chars) : Chars → Option Chars
  | [] => f []
  | c :: rest =>
    match f (c :: rest) with
    | some g => some g
    | none => scanFor f rest

/-- Leftmost-match search combinator threading the previous character, for
anchored matchers that test a word boundary. -/
def scanForB (f : Option Char → Chars → Option Chars) : Option Char → Chars → Option Chars
  | prev, [] => f prev []
  | prev, c :: rest =>
    match f prev (c :: rest) with
    | some g => some g
    | none => scanForB f (some c) rest

/-- Word-character test of the previous character (false at string start). -/
def prevIsWord (prev : Option Char) : Bool :=
  match prev with
  | none => false
  | some p => isWordPy p

/-- Amount keyword literals of _parse_amount in alternation order; the fifth
alternative with the optional internal whitespace is handled separately. -/
def amountKeywords : List Chars :=
  [S "จำนวนเงิน", S "Amount", S "โอนเงินสำเร็จ", S "ยอดเงิน"]

/-- Length matched by the amount keyword alternation at the current position,
including the alternative of จำนวน, one optional whitespace, เงิน (the
whitespace branch is greedy, hence tried first). -/
def amountKwAt (t : Chars) : Option Nat :=
  match firstAltCI amountKeywords t with
  | some k => some k.length
  | none =>
    let w1 := S "จำนวน"
    let w2 := S "เงิน"
    if litAtCI w1 t then
      let r := t.drop w1.length
      match r with
      | c :: r2 =>
        if isSpacePy c && litAtCI w2 r2 then some (w1.length + 1 + w2.length)
        else if litAtCI w2 r then some (w1.length + w2.length)
        else none
      | [] => none
    else none

/-- Separator run of \s* followed by a run of colon-or-space characters; both
quantifiers are greedy and the following token is a digit or comma, disjoint
from this class, so maximal munch over the union class is complete. -/
def isAmtSep (c : Char) : Bool := isSpacePy c || c == ':'

/-- Character class of digits and the thousands separator comma. -/
def isDigitComma (c : Char) : Bool := isDigitPy c || c == ','

/-- The captured amount group: a nonempty digit-or-comma run, a dot, exactly
two digits.  The run is greedy and no shorter take can succeed because a
shortened run ends on a digit or comma, never on the required dot. -/
def amountGroupAt (t : Chars) : Option Chars :=
  let run := t.takeWhile isDigitComma
  if run.isEmpty then none
  else
    match t.drop run.length with
    | c :: d1 :: d2 :: _ =>
      if c == '.' && isDigitPy d1 && isDigitPy d2 then some (run ++ '.' :: [d1, d2])
      else none
    | _ => none

/-- First amount pattern, anchored: keyword, separator run, amount group. -/
def amount_p1At (t : Chars) : Option Chars :=
  match amountKwAt t with
  | none => none
  | some klen =>
    let r := t.drop klen
    let sep := r.takeWhile isAmtSep
    amountGroupAt (r.drop sep.length)

/-- Second amount pattern, anchored: amount group, optional whitespace, then
one of the currency words บาท, BAHT, thb, case-insensitively. -/
def amount_p2At (t : Chars) : Option Chars :=
  match amountGroupAt t with
  | none => none
  | some g =>
    let r := (t.drop g.length).dropWhile isSpacePy
    if litAtCI (S "บาท") r || litAtCI (S "BAHT") r || litAtCI (S "thb") r then some g
    else none

/-- Third amount pattern, anchored with word boundaries: a digit-or-comma run
of length one to ten, a dot, two digits.  The leading boundary compares the
word status of the previous character and of the first group character; the
bounded greedy run can only succeed at its maximal extent, which must be
followed by the dot. -/
def amount_p3At (prev : Option Char) (t : Chars) : Option Chars :=
  match t with
  | [] => none
  | c :: _ =>
    if prevIsWord prev != isWordPy c then
      let run := t.takeWhile isDigitComma
      if run.isEmpty || 10 < run.length then none
      else
        match t.drop run.length with
        | d :: d1 :: d2 :: rest3 =>
          if d == '.' && isDigitPy d1 && isDigitPy d2 && !(nextIsWord rest3) then
            some (run ++ '.' :: [d1, d2])
          else none
        | _ => none
    else none

/-- The three amount patterns as compiled patterns with one group each. -/
def amount_p1 : Pat := fun t => (scanFor amount_p1At t).map (fun g => [some g])

/-- Second amount pattern as a compiled pattern. -/
def amount_p2 : Pat := fun t => (scanFor amount_p2At t).map (fun g => [some g])

/-- Third amount pattern as a compiled pattern. -/
def amount_p3 : Pat := fun t => (scanForB amount_p3At none t).map (fun g => [some g])

/-- The _parse_amount resolver: ordered patterns through find_first_match,
then removal of every comma from the result. -/
def _parse_amount (t : Chars) : Option Chars :=
  match find_first_match t [amount_p1, amount_p2, amount_p3] with
  | some a => some (a.filter (fun c => c != ','))
  | none => none

/-- Thai character class of the date-line time pattern: the consonant range,
the range from U+0E40 to U+0E4C, and the dot. -/
def isThaiDateCls (c : Char) : Bool :=
  let n := c.toNat
  (0xe01 ≤ n && n ≤ 0xe2e) || (0xe40 ≤ n && n ≤ 0xe4c) || c == '.'

/-- Comma-or-space class of the date-line time pattern. -/
def isCommaSpace (c : Char) : Bool := c == ',' || isSpacePy c

/-- Time group of one or two hour digits, colon, two minute digits, and an
optional greedy colon-seconds extension. -/
def timeGroupAt (t : Chars) : Option Chars :=
  [2, 1].findSome? fun dl =>
    let d := t.take dl
    if d.length == dl && d.all isDigitPy then
      match t.drop dl with
      | c :: m1 :: m2 :: rest =>
        if c == ':' && isDigitPy m1 && isDigitPy m2 then
          match rest with
          | c2 :: s1 :: s2 :: _ =>
            if c2 == ':' && isDigitPy s1 && isDigitPy s2 then
              some (d ++ ':' :: m1 :: m2 :: ':' :: [s1, s2])
            else some (d ++ ':' :: [m1, m2])
          | _ => some (d ++ ':' :: [m1, m2])
        else none
      | _ => none
    else none

/-- Date-line time pattern, anchored: one or two digits, whitespace, a Thai
run, whitespace, two to four digits, a comma-or-space run, then the captured
time group. -/
def time_p0At (t : Chars) : Option Chars :=
  [2, 1].findSome? fun dl =>
    let d := t.take dl
    if d.length == dl && d.all isDigitPy then
      let r1 := t.drop dl
      let w1 := r1.takeWhile isSpacePy
      if w1.isEmpty then none
      else
        let r2 := r1.drop w1.length
        let th := r2.takeWhile isThaiDateCls
        if th.isEmpty then none
        else
          let r3 := r2.drop th.length
          let w2 := r3.takeWhile isSpacePy
          if w2.isEmpty then none
          else
            let r4 := r3.drop w2.length
            let yr := r4.takeWhile isDigitPy
            if yr.length < 2 || 4 < yr.length then none
            else
              let r5 := r4.drop yr.length
              let cs := r5.takeWhile isCommaSpace
              if cs.isEmpty then none
              else timeGroupAt (r5.drop cs.length)
    else none

/-- Time group of exactly two hour digits, for the keyword time pattern. -/
def timeGroup22At (t : Chars) : Option Chars :=
  match t with
  | h1 :: h2 :: c :: m1 :: m2 :: rest =>
    if isDigitPy h1 && isDigitPy h2 && c == ':' && isDigitPy m1 && isDigitPy m2 then
      match rest with
      | c2 :: s1 :: s2 :: _ =>
        if c2 == ':' && isDigitPy s1 && isDigitPy s2 then
          some (h1 :: h2 :: ':' :: m1 :: m2 :: ':' :: [s1, s2])
        else some (h1 :: h2 :: ':' :: [m1, m2])
      | _ => some (h1 :: h2 :: ':' :: [m1, m2])
    else none
  | _ => none

/-- Keyword time pattern, anchored: เวลา or Time, a separator run, then the
captured time group. -/
def time_p1At (t : Chars) : Option Chars :=
  match firstAltCI [S "เวลา", S "Time"] t with
  | none => none
  | some k =>
    let r := t.drop k.length
    let sep := r.takeWhile isAmtSep
    timeGroup22At (r.drop sep.length)

/-- Bare seconds-bearing time pattern with word boundaries, anchored. -/
def time_p2At (prev : Option Char) (t : Chars) : Option Chars :=
  match t with
  | h1 :: h2 :: c :: m1 :: m2 :: c2 :: s1 :: s2 :: rest =>
    if !(prevIsWord prev) && isDigitPy h1 && isDigitPy h2 && c == ':' && isDigitPy m1 &&
       isDigitPy m2 && c2 == ':' && isDigitPy s1 && isDigitPy s2 && !(nextIsWord rest) then
      some (h1 :: h2 :: ':' :: m1 :: m2 :: ':' :: [s1, s2])
    else none
  | _ => none

/-- Bare hour-minute time pattern with word boundaries, anchored. -/
def time_p3At (prev : Option Char) (t : Chars) : Option Chars :=
  if prevIsWord prev then none
  else
    [2, 1].findSome? fun dl =>
      let d := t.take dl
      if d.length == dl && d.all isDigitPy then
        match t.drop dl with
        | c :: m1 :: m2 :: rest =>
          if c == ':' && isDigitPy m1 && isDigitPy m2 && !(nextIsWord rest) then
            some (d ++ ':' :: [m1, m2])
          else none
        | _ => none
      else none

/-- Keyword time pattern as a compiled pattern. -/
def time_p1 : Pat := fun t => (scanFor time_p1At t).map (fun g => [some g])

/-- Bare seconds-bearing time pattern as a compiled pattern. -/
def time_p2 : Pat := fun t => (scanForB time_p2At none t).map (fun g => [some g])

/-- Bare hour-minute time pattern as a compiled pattern. -/
def time_p3 : Pat := fun t => (scanForB time_p3At none t).map (fun g => [some g])

/-- The _find_time resolver: the date-line pattern is searched first and its
group returned unstripped; otherwise the three prioritized patterns go
through find_first_match. -/
def _find_time (t : Chars) : Option Chars :=
  match scanFor time_p0At t with
  | some g => some g
  | none => find_first_match t [time_p1, time_p2, time_p3]

/-- Honorific prefixes of the name patterns, in alternation order. -/
def honorifics : List Chars :=
  [S "นาย", S "นาง", S "นางสาว", S "น.ส.", S "คุณ", S "บจก.", S "หจก."]

/-- Name character class: the Thai block from ก to the Thai digit ๙, ASCII
letters, whitespace, dot, apostrophe and double quote. -/
def isNameCls (c : Char) : Bool :=
  let n := c.toNat
  (0xe01 ≤ n && n ≤ 0xe59) || (65 ≤ n && n ≤ 90) || (97 ≤ n && n ≤ 122) ||
  isSpacePy c || c == '.' || n == 39 || c == '"'

/-- Separator class of the first name pattern: whitespace, colon, dot, dash. -/
def isSepP1 (c : Char) : Bool :=
  isSpacePy c || c == ':' || c == '.' || c == '-'

/-- Class of digits and the letter x under IGNORECASE. -/
def isMaskCls (c : Char) : Bool := isDigitPy c || eqCI c 'x'

/-- Tail of the masked-account token after the leading x: an optional greedy
dash, then at least one digit-or-x character.  When the dash is absent from
the text the dashless branch applies; when present, skipping it cannot help
because the dash is outside the digit-or-x class. -/
def maskTailOk (r : Chars) : Bool :=
  match r with
  | '-' :: r2 => !(r2.takeWhile isMaskCls).isEmpty
  | _ => !(r.takeWhile isMaskCls).isEmpty

/-- Lookahead of the first name pattern: optional whitespace then a masked
account token, or optional whitespace then ธนาคาร, or the MULTILINE end of
line.  Only its success matters; it consumes nothing. -/
def lookaheadP1 (r : Chars) : Bool :=
  (match r.dropWhile isSpacePy with
   | c :: w2 => eqCI c 'x' && maskTailOk w2
   | [] => false) ||
  litAtCI (S "ธนาคาร") (r.dropWhile isSpacePy) ||
  r.isEmpty || r.head? == some '\n'

/-- All honorific alternatives matching at the current position, in
alternation order, followed by the empty branch of the optional group.
Chronological backtracking tries them in this order. -/
def honChoices (r : Chars) : List Nat :=
  (honorifics.filterMap (fun h => if litAtCI h r then some h.length else none)) ++ [0]

/-- All keyword alternatives matching at the current position, in alternation
order. -/
def kwChoices (kws : List Chars) (t : Chars) : List Nat :=
  kws.filterMap (fun k => if litAtCI k t then some k.length else none)

/-- Continuation of the first name pattern after the keyword: a greedy
separator run, the optional honorific, a greedy whitespace run, a lazy
nonempty name-class run, and the lookahead.  The nesting order reproduces
chronological backtracking: the innermost choice point moves first. -/
def p1AfterKw (rest : Chars) : Option Chars :=
  let sepMax := (rest.takeWhile isSepP1).length
  (downFrom sepMax).findSome? fun sepLen =>
    let r1 := rest.drop sepLen
    (honChoices r1).findSome? fun honLen =>
      let r2 := r1.drop honLen
      let wMax := (r2.takeWhile isSpacePy).length
      (downFrom wMax).findSome? fun wLen =>
        let r3 := r2.drop wLen
        let coreMax := (r3.takeWhile isNameCls).length
        (upTo1 coreMax).findSome? fun coreLen =>
          if lookaheadP1 (r3.drop coreLen) then
            some (r1.take (honLen + wLen + coreLen))
          else none

/-- First name pattern anchored at the current position. -/
def name_p1At (kws : List Chars) (t : Chars) : Option Chars :=
  (kwChoices kws t).findSome? fun klen => p1AfterKw (t.drop klen)

/-- Second name pattern anchored at the current position: keyword, at least
one whitespace (greedy), optional honorific, greedy whitespace, greedy
nonempty name-class run with no trailing constraint. -/
def name_p2At (kws : List Chars) (t : Chars) : Option Chars :=
  (kwChoices kws t).findSome? fun klen =>
    let rest := t.drop klen
    let wsMax := (rest.takeWhile isSpacePy).length
    ((downFrom wsMax).filter (fun n => 1 ≤ n)).findSome? fun sLen =>
      let r1 := rest.drop sLen
      (honChoices r1).findSome? fun honLen =>
        let r2 := r1.drop honLen
        let wMax := (r2.takeWhile isSpacePy).length
        (downFrom wMax).findSome? fun wLen =>
          let r3 := r2.drop wLen
          let coreMax := (r3.takeWhile isNameCls).length
          if 1 ≤ coreMax then some (r1.take (honLen + wLen + coreMax)) else none

/-- First name pattern as a compiled pattern. -/
def name_p1 (kws : List Chars) : Pat :=
  fun t => (scanFor (name_p1At kws) t).map (fun g => [some g])

/-- Second name pattern as a compiled pattern. -/
def name_p2 (kws : List Chars) : Pat :=
  fun t => (scanFor (name_p2At kws) t).map (fun g => [some g])

/-- Removal of the trailing run of digits, whitespace and dashes performed on
a captured name. -/
def stripTrailingNumRun (l : Chars) : Chars :=
  (l.reverse.dropWhile (fun c => isDigitPy c || isSpacePy c || c == '-')).reverse

/-- Fuel-driven loop of removeKwsCI; the length of the text always suffices
as fuel, since every step consumes at least one character. -/
def removeKwsCIFuel (kws : List Chars) : Nat → Chars → Chars
  | _, [] => []
  | 0, _ :: _ => []
  | fuel + 1, c :: rest =>
    match kwChoices kws (c :: rest) with
    | klen :: _ =>
      if klen == 0 then c :: removeKwsCIFuel kws fuel rest
      else removeKwsCIFuel kws fuel (rest.drop (klen - 1))
    | [] => c :: removeKwsCIFuel kws fuel rest

/-- re.sub removing every keyword occurrence, scanning left to right without
overlap, first matching alternative consumed at each position. -/
def removeKwsCI (kws : List Chars) (l : Chars) : Chars :=
  removeKwsCIFuel kws l.length l

/-- Honorific-only results rejected by _parse_name. -/
def nameBlacklist : List Chars :=
  [S "นาย", S "นาง", S "นางสาว", S "น.ส.", S "คุณ"]

/-- The _parse_name resolver: the two keyword-anchored patterns through
find_first_match, removal of a trailing numeric run, removal of keyword
occurrences, and rejection of empty or honorific-only remainders. -/
def _parse_name (t : Chars) (kws : List Chars) : Option Chars :=
  match find_first_match t [name_p1 kws, name_p2 kws] with
  | none => none
  | some name =>
    if name.isEmpty then none
    else
      let c1 := trimPy (stripTrailingNumRun name)
      let c2 := trimPy (removeKwsCI kws c1)
      if !c2.isEmpty && !(nameBlacklist.contains (c2.map loChar)) then some c2
      else none

/-- Python str.split on the newline character. -/
def splitOnNl : Chars → List Chars
  | [] => [[]]
  | c :: rest =>
    if c == '\n' then [] :: splitOnNl rest
    else
      match splitOnNl rest with
      | l :: ls => (c :: l) :: ls
      | [] => [[c]]

/-- Line preprocessing shared by the line-based extractors: split on newlines,
strip each line, keep the nonempty ones. -/
def splitLines (t : Chars) : List Chars :=
  ((splitOnNl t).map trimPy).filter (fun l => !l.isEmpty)

/-- Anchored re.match of the name-shape pattern: an optional honorific, greedy
whitespace, then a nonempty greedy name-class run.  Honorific characters and
whitespace all lie in the name class, so the match succeeds exactly when the
first character is in the class, and the captured group is the maximal
name-class prefix of the line. -/
def matchNameShape (l : Chars) : Option Chars :=
  match l with
  | [] => none
  | c :: _ => if isNameCls c then some (l.takeWhile isNameCls) else none

/-- Class of digits and lowercase x (the case-sensitive masked-account class
of _find_standalone_name). -/
def isMaskClsCS (c : Char) : Bool := isDigitPy c || c == 'x'

/-- Does the case-sensitive strip pattern of _find_standalone_name match at
the current position: greedy whitespace, lowercase x, optional dash, then at
least one digit-or-x character. -/
def stripXAt (t : Chars) : Bool :=
  match t.dropWhile isSpacePy with
  | c :: r =>
    c == 'x' &&
    (match r with
     | '-' :: r2 => !(r2.takeWhile isMaskClsCS).isEmpty
     | _ => !(r.takeWhile isMaskClsCS).isEmpty)
  | [] => false

/-- re.sub with empty replacement of a pattern that consumes the rest of the
line: keep the prefix before the leftmost match position. -/
def cutAtMatch (f : Chars → Bool) : Chars → Chars
  | [] => []
  | c :: rest => if f (c :: rest) then [] else c :: cutAtMatch f rest

/-- The _find_standalone_name resolver: walk the stripped nonempty lines; the
first line matching the name shape whose immediately preceding line contains
a context keyword, case-insensitively, is returned with any masked-account
suffix removed.  The first line of the text can never be returned. -/
def standaloneAux (ctxKws : List Chars) : List Chars → Option Chars
  | [] => none
  | [_] => none
  | prev :: line :: rest =>
    match matchNameShape line with
    | some g =>
      if ctxKws.any (fun kw => subList (kw.map upChar) (prev.map upChar)) then
        some (trimPy (cutAtMatch stripXAt (trimPy g)))
      else standaloneAux ctxKws (line :: rest)
    | none => standaloneAux ctxKws (line :: rest)

/-- The _find_standalone_name resolver over the whole text. -/
def _find_standalone_name (t : Chars) (ctxKws : List Chars) : Option Chars :=
  standaloneAux ctxKws (splitLines t)

/-- Class of digits, x under IGNORECASE, and dash. -/
def isMaskDashCls (c : Char) : Bool := isDigitPy c || eqCI c 'x' || c == '-'

/-- Tail of the masked alternative of the account pattern after the leading
x: an optional dash then at least five class characters.  Because the dash
itself belongs to the class, the two branches reduce to a run of length at
least five from the current position. -/
def accountMaskOk (r : Chars) : Bool :=
  5 ≤ (r.takeWhile isMaskDashCls).length

/-- Account-number pattern anchored at the current position: ten digits with
word boundaries, or a masked token of x, optional dash, and at least five
digit-x-dash characters, case-insensitively. -/
def accountPatAt (prev : Option Char) (t : Chars) : Bool :=
  (let d := t.take 10
   !(prevIsWord prev) && d.length == 10 && d.all isDigitPy && !(nextIsWord (t.drop 10))) ||
  (match t with
   | c :: r => eqCI c 'x' && accountMaskOk r
   | [] => false)

/-- Boolean leftmost-search combinator threading the previous character. -/
def scanForBool (f : Option Char → Chars → Bool) : Option Char → Chars → Bool
  | prev, [] => f prev []
  | prev, c :: rest => f prev (c :: rest) || scanForBool f (some c) rest

/-- re.search of the account-number pattern on one line. -/
def accountSearch (t : Chars) : Bool := scanForBool accountPatAt none t

/-- Non-name clue pattern anchored at the current position: bank words, the
boundary-anchored abbreviation ธ followed by a dot or whitespace, and the
transaction words, case-insensitively. -/
def clueAt (prev : Option Char) (t : Chars) : Bool :=
  litAtCI (S "ธนาคาร") t || litAtCI (S "bank") t ||
  (!(prevIsWord prev) &&
   (match t with
    | c :: d :: _ => c == 'ธ' && (d == '.' || isSpacePy d)
    | _ => false)) ||
  litAtCI (S "โอนเงิน") t || litAtCI (S "จำนวนเงิน") t || litAtCI (S "วันที่") t ||
  litAtCI (S "สำเร็จ") t || litAtCI (S "บาท") t || litAtCI (S "baht") t ||
  litAtCI (S "amount") t || litAtCI (S "transfer") t

/-- re.search of the non-name clue pattern on one line. -/
def clueSearch (t : Chars) : Bool := scanForBool clueAt none t

/-- re.fullmatch of the whitespace-x-dash pattern: a nonempty name made only
of whitespace, x and dashes is discarded. -/
def isSkipName (l : Chars) : Bool :=
  !l.isEmpty && l.all (fun c => isSpacePy c || eqCI c 'x' || c == '-')

/-- Does the case-insensitive strip pattern of the positional extractor match
at the current position: at least one whitespace, x, optional dash, then at
least one digit-x-dash character (the dash belongs to the class, so the
branches reduce to a nonempty run). -/
def stripX2At (t : Chars) : Bool :=
  let w := t.takeWhile isSpacePy
  !w.isEmpty &&
  (match t.drop w.length with
   | c :: r => eqCI c 'x' && !(r.takeWhile isMaskDashCls).isEmpty
   | [] => false)

/-- Line walk of _find_names_by_account_number: a line is accepted when it
matches the name shape, contains no clue, and an account token occurs on the
line, on the next line, or on the line after a clue line; accepted names are
stripped, filtered and collected in document order without duplicates. -/
def namesGo : List Chars → List Chars → List Chars
  | [], found => found
  | line :: rest, found =>
    match matchNameShape line with
    | none => namesGo rest found
    | some g =>
      if clueSearch line then namesGo rest found
      else
        let confirmed :=
          accountSearch line ||
          (match rest with
           | l1 :: _ => accountSearch l1
           | [] => false) ||
          (match rest with
           | l1 :: l2 :: _ => clueSearch l1 && accountSearch l2
           | _ => false)
        if confirmed then
          let name := trimPy g
          if isSkipName name then namesGo rest found
          else
            let name2 := trimPy (cutAtMatch stripX2At name)
            if 2 < name2.length && !(found.contains name2) then
              namesGo rest (found ++ [name2])
            else namesGo rest found
        else namesGo rest found

/-- The _find_names_by_account_number resolver. -/
def _find_names_by_account_number (t : Chars) : List Chars :=
  namesGo (splitLines t) []

/-- The _clean_ocr_name helper: falsy input gives none; otherwise strip a
leading run of dots and whitespace, delete every PHINTHU character U+0E3A,
strip a leading run of dots, whitespace, า and อ, and strip both ends twice. -/
def _clean_ocr_name : Option Chars → Option Chars
  | none => none
  | some name =>
    if name.isEmpty then none
    else
      let c1 := name.dropWhile (fun c => c == '.' || isSpacePy c)
      let c2 := c1.filter (fun c => c.toNat != 0xe3a)
      let c3 := trimPy (c2.dropWhile (fun c => c == '.' || isSpacePy c || c == 'า' || c == 'อ'))
      some (trimPy c3)

/-- The bank_keywords table of parse_payment_slip, in insertion order, with
the keyword lists in declaration order. -/
def bank_keywords : List (Chars × List Chars) :=
  [(S "กรุงเทพ", [S "BBL", S "BBLA", S "BANGKOK BANK", S "ธนาคารกรุงเทพ", S "กรุงเทพ"]),
   (S "กสิกรไทย", [S "KBANK", S "KASIKORNBANK", S "KASI", S "KPLUS", S "K+", S "+",
                   S "MAKE", S "MAKE by KBank", S "ธนาคารกสิกรไทย", S "กสิกรไทย", S "กสิกร",
                   S "ร.กสิกรไทย", S "ภ ส ก ร ไท ย"]),
   (S "ไทยพาณิชย์", [S "SCB", S "SIAM COMMERCIAL BANK", S "ธนาคารไทยพาณิชย์", S "ไทยพาณิชย์"]),
   (S "กรุงไทย", [S "KTB", S "KRUNGTHAI", S "krungthai", S "ธนาคารกรุงไทย", S "กรุงไทย",
                  S "ก ร ง ไท ย"]),
   (S "ทหารไทยธนชาต", [S "TTB", S "ttb", S "TMBTHANACHART BANK", S "ธนาคารทหารไทยธนชาต",
                       S "ทีเอ็มบีธนชาต", S "ทหารไทย", S "ธนชาต", S "TTMB"]),
   (S "ออมสิน", [S "GSB", S "GOVERNMENT SAVINGS BANK", S "MYMO", S "ธนาคารออมสิน",
                 S "ออมสิน", S "อ อ ม ส น"]),
   (S "กรุงศรีอยุธยา", [S "BAY", S "KRUNGSRI", S "BANK OF AYUDHYA", S "ธนาคารกรุงศรีอยุธยา",
                        S "กรุงศรี"]),
   (S "ธ.ก.ส.", [S "BAAC", S "ธกส", S "ธ.ก.ส."])]

/-- Recipient-marker literals of the bank section, in alternation order. -/
def recipient_markers : List Chars :=
  [S "ไปยัง", S "ไปที่", S "TO", S "ผู้รับเงิน", S "ผู้รับ", S "RECIPIENT", S "ถึง"]

/-- Index of the leftmost position at which some recipient marker matches,
case-insensitively, as given by re.search on the original text. -/
def markerIdxAux : Nat → Chars → Option Nat
  | _, [] => none
  | i, c :: rest =>
    if recipient_markers.any (fun m => litAtCI m (c :: rest)) then some i
    else markerIdxAux (i + 1) rest

/-- Start index of the recipient-marker match, if any. -/
def markerIdx (t : Chars) : Option Nat := markerIdxAux 0 t

/-- Does some keyword of the list occur as a substring of the window?  This is
re.search of the alternation of escaped keywords, without flags, on an
already uppercased window. -/
def bankMatches (kws : List Chars) (w : Chars) : Bool :=
  kws.any (fun k => subList k w)

/-- Bank resolution of parse_payment_slip: uppercase the text, restrict to
the part before the recipient marker when one exists, return the first bank
of the table with a keyword in that window, falling back to the whole
uppercased text, and none when nothing matches anywhere. -/
def find_bank (t : Chars) : Option Chars :=
  let U := t.map upChar
  let window := match markerIdx t with
    | some i => U.take i
    | none => U
  match bank_keywords.find? (fun e => bankMatches e.2 window) with
  | some e => some e.1
  | none => (bank_keywords.find? (fun e => bankMatches e.2 U)).map (fun e => e.1)

/-- Sender keyword list of parse_payment_slip. -/
def sender_keywords : List Chars := [S "จาก", S "From", S "ผู้โอน"]

/-- Recipient keyword list of parse_payment_slip. -/
def recipient_keywords : List Chars :=
  [S "ไปยัง", S "ไปที่", S "To", S "ผู้รับเงิน", S "ผู้รับ", S "Recipient", S "ถึง"]

/-- Python truthiness of an optional string: present and nonempty. -/
def pyTruthy (x : Option Chars) : Bool :=
  match x with
  | some s => !s.isEmpty
  | none => false

/-- Python or on optional strings: the first operand when truthy, otherwise
the second operand unchanged. -/
def pyOr (a b : Option Chars) : Option Chars := if pyTruthy a then a else b

/-- Sender after the keyword-anchored and standalone-line strategies. -/
def resolveSender0 (t : Chars) : Option Chars :=
  pyOr (_parse_name t sender_keywords) (_find_standalone_name t sender_keywords)

/-- Recipient after the keyword-anchored and standalone-line strategies. -/
def resolveRecipient0 (t : Chars) : Option Chars :=
  pyOr (_parse_name t recipient_keywords) (_find_standalone_name t recipient_keywords)

/-- Name phase of parse_payment_slip: when the sender or the recipient is
falsy, run the positional extractor and fill the falsy roles from the first
and second candidates respectively. -/
def resolve_names (t : Chars) : Option Chars × Option Chars :=
  let sender := resolveSender0 t
  let recipient := resolveRecipient0 t
  if !(pyTruthy sender) || !(pyTruthy recipient) then
    let names := _find_names_by_account_number t
    ((if !(pyTruthy sender) then
        match names[0]? with
        | some n => some n
        | none => sender
      else sender),
     (if !(pyTruthy recipient) then
        match names[1]? with
        | some n => some n
        | none => recipient
      else recipient))
  else (sender, recipient)

/-- Plain reference keyword literals, in alternation order; the two composite
alternatives follow them. -/
def refKeywords : List Chars :=
  [S "รหัสอ้างอิง", S "หมายเลขอ้างอิง", S "เลขที่อ้างอิง", S "เลขที่รายการ", S "รหัสอ้างอิง",
   S "เลขอ้างอิง", S "อ้างอิง", S "Ref"]

/-- All reference keyword alternatives matching at the current position, in
alternation order; the ninth alternative is Ref, a dot, greedy whitespace,
No, and the tenth is No followed by a dot. -/
def refKwChoices (t : Chars) : List Nat :=
  (refKeywords.filterMap (fun k => if litAtCI k t then some k.length else none)) ++
  (if litAtCI (S "Ref.") t then
     let r := t.drop 4
     let w := r.takeWhile isSpacePy
     if litAtCI (S "No") (r.drop w.length) then [4 + w.length + 2] else []
   else []) ++
  (if litAtCI (S "No.") t then [3] else [])

/-- Separator class of the reference pattern: whitespace, colon, dot. -/
def isRefSep (c : Char) : Bool := isSpacePy c || c == ':' || c == '.'

/-- ASCII alphanumeric characters. -/
def isAsciiAlnum (c : Char) : Bool :=
  let n := c.toNat
  (48 ≤ n && n ≤ 57) || (65 ≤ n && n ≤ 90) || (97 ≤ n && n ≤ 122)

/-- Captured-group class of the reference pattern: ASCII alphanumerics,
whitespace and dash. -/
def isRefCls (c : Char) : Bool := isAsciiAlnum c || isSpacePy c || c == '-'

/-- Keyword reference pattern anchored at the current position: a keyword
alternative, a greedy separator run explored downward, then a nonempty
greedy run of the group class. -/
def ref_p1At (t : Chars) : Option Chars :=
  (refKwChoices t).findSome? fun klen =>
    let r := t.drop klen
    let sepMax := (r.takeWhile isRefSep).length
    (downFrom sepMax).findSome? fun sepLen =>
      let r2 := r.drop sepLen
      let g := r2.takeWhile isRefCls
      if g.isEmpty then none else some g

/-- Bare long alphanumeric reference pattern anchored at the current position:
word boundary, at least fifteen ASCII alphanumerics, word boundary. -/
def ref_p2At (prev : Option Char) (t : Chars) : Option Chars :=
  if prevIsWord prev then none
  else
    let run := t.takeWhile isAsciiAlnum
    if run.length < 15 then none
    else if nextIsWord (t.drop run.length) then none
    else some run

/-- Keyword reference pattern as a compiled pattern. -/
def ref_p1 : Pat := fun t => (scanFor ref_p1At t).map (fun g => [some g])

/-- Bare reference pattern as a compiled pattern. -/
def ref_p2 : Pat := fun t => (scanForB ref_p2At none t).map (fun g => [some g])

/-- Reference step of parse_payment_slip: find_first_match over the two
patterns, then removal of every space character from a truthy result. -/
def refResolve (t : Chars) : Option Chars :=
  match find_first_match t [ref_p1, ref_p2] with
  | some r => if r.isEmpty then none else some (r.filter (fun c => c != ' '))
  | none => none

/-- The structured record assembled by parse_payment_slip in the parsed
state; every field of the dictionary is present. -/
structure Slip where
  raw_text : Chars
  bank : Option Chars
  amount : Option Chars
  date : Option Chars
  time : Option Chars
  sender : Option Chars
  recipient : Option Chars
  reference : Option Chars
deriving DecidableEq

/-- Result of parse_payment_slip: the err constructor is the record holding
only the error key, the ok constructor the full record without it. -/
inductive ParseResult where
  | err : Chars → ParseResult
  | ok : Slip → ParseResult
deriving DecidableEq

/-- The parse_payment_slip orchestrator.  A falsy input text returns the
error record; otherwise every resolver runs on the text and the record is
assembled. -/
def parse_payment_slip (nowYearAD : Nat) (text : Chars) : ParseResult :=
  if text.isEmpty then .err (S "ไม่มีข้อความให้")
  else
    let nr := resolve_names text
    .ok
      { raw_text := text
        bank := find_bank text
        amount := _parse_amount text
        date := _find_date nowYearAD text
        time := _find_time text
        sender := _clean_ocr_name nr.1
        recipient := _clean_ocr_name nr.2
        reference := refResolve text }

/-- Transcription of the specification reading of find_first_match: the first
pattern that matches decides the result alone; if all its groups are empty
the result is absent. -/
def find_first_match_claim (t : Chars) (pats : List Pat) : Option Chars :=
  match pats.find? (fun p => (p t).isSome) with
  | none => none
  | some p =>
    match p t with
    | some gs => (firstTruthyGroup gs).map trimPy
    | none => none

/-- Amended behaviour of find_first_match: the first pattern that matches
with at least one nonempty group decides; a pattern that matches with only
empty or unmatched groups is skipped and later patterns are still tried. -/
def find_first_match_skipping (t : Chars) (pats : List Pat) : Option Chars :=
  (pats.findSome? fun p =>
    match p t with
    | some gs => firstTruthyGroup gs
    | none => none).map trimPy

/-- Compiled form of the pattern of a followed by a captured greedy run of b,
under IGNORECASE: at the leftmost a, capture the following run of b. -/
def patAB : Pat := fun t =>
  (scanFor
    (fun r =>
      match r with
      | c :: rest => if eqCI c 'a' then some (rest.takeWhile (fun d => eqCI d 'b')) else none
      | [] => none) t).map (fun g => [some g])

/-- Compiled form of the pattern capturing a single c, under IGNORECASE. -/
def patC : Pat := fun t =>
  (scanFor
    (fun r =>
      match r with
      | c :: _ => if eqCI c 'c' then some [c] else none
      | [] => none) t).map (fun g => [some g])

/-- Is one of the two date patterns of _find_date present in the text? -/
def datePatternPresent (t : Chars) : Bool :=
  (monthYearSearch t).isSome || (numericDateSearch t).isSome

/-- Does some keyword of the list occur as a case-insensitive substring of
the window, as the specification words the bank match? -/
def bankMatchesCI (kws : List Chars) (w : Chars) : Bool :=
  kws.any (fun k => subList (k.map upChar) w)

/-- Bank resolution as the specification describes it: the same
recipient-marker window, each bank tested in table order, a bank matching
when any keyword occurs as a case-insensitive substring, with the fall back
to the entire text. -/
def find_bank_spec (t : Chars) : Option Chars :=
  let U := t.map upChar
  let window := match markerIdx t with
    | some i => U.take i
    | none => U
  match bank_keywords.find? (fun e => bankMatchesCI e.2 window) with
  | some e => some e.1
  | none => (bank_keywords.find? (fun e => bankMatchesCI e.2 U)).map (fun e => e.1)

/-- Cover condition of a keyword list: every keyword either is fixed under
uppercasing, or contains, in its uppercased form, a keyword of the same list
that is fixed under uppercasing. -/
def coveringOK (kws : List Chars) : Bool :=
  kws.all fun k =>
    decide (k.map upChar = k) ||
    kws.any (fun q => decide (q.map upChar = q) && subList q (k.map upChar))

/-- Name phase as the claim words it: the positional strategy is invoked only
when both roles are unresolved, and then fills both positionally. -/
def resolve_names_claim (t : Chars) : Option Chars × Option Chars :=
  let sender := resolveSender0 t
  let recipient := resolveRecipient0 t
  if !(pyTruthy sender) && !(pyTruthy recipient) then
    let names := _find_names_by_account_number t
    ((match names[0]? with
      | some n => some n
      | none => sender),
     (match names[1]? with
      | some n => some n
      | none => recipient))
  else (sender, recipient)

/-- Test of the claimed amount shape: one or more digits, a dot, exactly two
digits, anchored at both ends. -/
def strictAmountShape (l : Chars) : Bool :=
  let ds := l.takeWhile isAsciiDigit
  !ds.isEmpty &&
  (match l.drop ds.length with
   | c :: d1 :: d2 :: rest => c == '.' && isAsciiDigit d1 && isAsciiDigit d2 && rest.isEmpty
   | _ => false)

/-! Helper lemmas about the generic matching combinators. -/

theorem firstTruthyGroup_mem {gs : MatchGroups} {g : Chars}
    (h : firstTruthyGroup gs = some g) : some g ∈ gs ∧ g ≠ [] := by
  induction gs with
  | nil => simp [firstTruthyGroup] at h
  | cons a rest ih =>
    cases a with
    | none =>
      simp only [firstTruthyGroup] at h
      rcases ih h with ⟨h1, h2⟩
      exact ⟨List.mem_cons_of_mem _ h1, h2⟩
    | some x =>
      simp only [firstTruthyGroup] at h
      by_cases hx : x.isEmpty
      · rw [if_pos hx] at h
        rcases ih h with ⟨h1, h2⟩
        exact ⟨List.mem_cons_of_mem _ h1, h2⟩
      · rw [if_neg hx] at h
        cases h
        refine ⟨List.mem_cons_self _ _, ?_⟩
        simpa [List.isEmpty_iff] using hx

theorem find_first_match_some {t : Chars} {pats : List Pat} {a : Chars}
    (h : find_first_match t pats = some a) :
    ∃ p ∈ pats, ∃ gs g, p t = some gs ∧ firstTruthyGroup gs = some g ∧ a = trimPy g := by
  induction pats with
  | nil => simp [find_first_match] at h
  | cons p rest ih =>
    simp only [find_first_match] at h
    cases hp : p t with
    | none =>
      simp only [hp] at h
      rcases ih h with ⟨q, hq, gs, g, h1, h2, h3⟩
      exact ⟨q, List.mem_cons_of_mem _ hq, gs, g, h1, h2, h3⟩
    | some gs =>
      simp only [hp] at h
      cases hg : firstTruthyGroup gs with
      | none =>
        simp only [hg] at h
        rcases ih h with ⟨q, hq, gs2, g, h1, h2, h3⟩
        exact ⟨q, List.mem_cons_of_mem _ hq, gs2, g, h1, h2, h3⟩
      | some g =>
        simp only [hg] at h
        cases h
        exact ⟨p, List.mem_cons_self _ _, gs, g, hp, hg, rfl⟩

theorem scanFor_some {f : Chars → Option Chars} {t g : Chars}
    (h : scanFor f t = some g) : ∃ r, f r = some g := by
  induction t with
  | nil => exact ⟨[], h⟩
  | cons c rest ih =>
    simp only [scanFor] at h
    cases hf : f (c :: rest) with
    | some g2 =>
      simp only [hf] at h
      exact ⟨c :: rest, by rw [hf, h]⟩
    | none =>
      simp only [hf] at h
      exact ih h

theorem scanForB_some {f : Option Char → Chars → Option Chars} {prev : Option Char}
    {t g : Chars} (h : scanForB f prev t = some g) : ∃ pr r, f pr r = some g := by
  induction t generalizing prev with
  | nil => exact ⟨prev, [], h⟩
  | cons c rest ih =>
    simp only [scanForB] at h
    cases hf : f prev (c :: rest) with
    | some g2 =>
      simp only [hf] at h
      exact ⟨prev, c :: rest, by rw [hf, h]⟩
    | none =>
      simp only [hf] at h
      exact ih h

/-! Lemmas about stripping and the character classes. -/

theorem dropWhile_head_not {p : Char → Bool} {l : Chars} {c : Char} {r : Chars}
    (h : l.dropWhile p = c :: r) : p c = false := by
  induction l with
  | nil => simp [List.dropWhile] at h
  | cons a t ih =>
    rw [List.dropWhile_cons] at h
    by_cases ha : p a = true
    · rw [if_pos ha] at h
      exact ih h
    · rw [if_neg ha] at h
      cases h
      simpa using ha

theorem trimPy_no_space_eq {l : Chars} (h : ∀ c ∈ l, isSpacePy c = false) : trimPy l = l := by
  have h1 : l.dropWhile isSpacePy = l := by
    cases l with
    | nil => rfl
    | cons a t =>
      rw [List.dropWhile_cons, if_neg (by simp [h a (List.mem_cons_self a t)])]
  unfold trimPy
  rw [h1]
  have h2 : l.reverse.dropWhile isSpacePy = l.reverse := by
    cases hr : l.reverse with
    | nil => rfl
    | cons a t =>
      have ha : a ∈ l := by
        have : a ∈ l.reverse := by
          rw [hr]
          exact List.mem_cons_self a t
        simpa using this
      rw [List.dropWhile_cons, if_neg (by simp [h a ha])]
  rw [h2, List.reverse_reverse]

theorem trimPy_head_not_space {l : Chars} {c : Char} (h : (trimPy l).head? = some c) :
    isSpacePy c = false := by
  unfold trimPy at h
  rw [List.head?_reverse] at h
  set A := l.dropWhile isSpacePy with hA
  set B := A.reverse.dropWhile isSpacePy with hB
  obtain ⟨pre, hpre⟩ : B <:+ A.reverse := by
    rw [hB]
    exact List.dropWhile_suffix _
  have h2 : A.reverse.getLast? = some c := by
    rw [← hpre, List.getLast?_append, h]
    rfl
  rw [List.getLast?_reverse] at h2
  cases hA2 : A with
  | nil =>
    rw [hA2] at h2
    simp at h2
  | cons a r =>
    rw [hA2] at h2
    simp only [List.head?_cons, Option.some.injEq] at h2
    subst h2
    exact dropWhile_head_not (hA.symm.trans hA2)

theorem trimPy_getLast_not_space {l : Chars} {c : Char} (h : (trimPy l).getLast? = some c) :
    isSpacePy c = false := by
  unfold trimPy at h
  rw [List.getLast?_reverse] at h
  cases hb : (l.dropWhile isSpacePy).reverse.dropWhile isSpacePy with
  | nil =>
    rw [hb] at h
    simp at h
  | cons b r =>
    rw [hb] at h
    simp only [List.head?_cons, Option.some.injEq] at h
    subst h
    exact dropWhile_head_not hb

theorem trimPy_eq_self_of_edges {l : Chars} (h1 : ∀ c, l.head? = some c → isSpacePy c = false)
    (h2 : ∀ c, l.getLast? = some c → isSpacePy c = false) : trimPy l = l := by
  cases l with
  | nil => rfl
  | cons a r =>
    have ha : isSpacePy a = false := h1 a rfl
    unfold trimPy
    rw [List.dropWhile_cons, if_neg (by simp [ha])]
    cases hrev : (a :: r).reverse with
    | nil => simp at hrev
    | cons b s =>
      have hbl : (a :: r).getLast? = some b := by
        rw [← List.head?_reverse, hrev]
        rfl
      have hb : isSpacePy b = false := h2 b hbl
      rw [List.dropWhile_cons]
      rw [if_neg (by simp [hb])]
      rw [← hrev, List.reverse_reverse]

theorem trimPy_trimPy (l : Chars) : trimPy (trimPy l) = trimPy l := by
  apply trimPy_eq_self_of_edges
  · exact fun c hc => trimPy_head_not_space hc
  · exact fun c hc => trimPy_getLast_not_space hc

theorem digitComma_not_space {c : Char} (h : isDigitComma c = true) : isSpacePy c = false := by
  simp only [isDigitComma, Bool.or_eq_true, beq_iff_eq] at h
  rcases h with h | h
  · cases hsp : isSpacePy c with
    | false => rfl
    | true =>
      exfalso
      simp only [isDigitPy, Bool.or_eq_true, Bool.and_eq_true, decide_eq_true_eq] at h
      simp only [isSpacePy, Bool.or_eq_true, Bool.and_eq_true, decide_eq_true_eq,
        beq_iff_eq] at hsp
      omega
  · subst h
    decide

theorem digit_not_space {c : Char} (h : isDigitPy c = true) : isSpacePy c = false := by
  apply digitComma_not_space
  simp [isDigitComma, h]

/-! Shape lemmas for the amount resolver. -/

theorem digit_ne_comma {c : Char} (h : isDigitPy c = true) : (c != ',') = true := by
  simp only [isDigitPy, Bool.or_eq_true, Bool.and_eq_true, decide_eq_true_eq] at h
  simp only [bne_iff_ne, ne_eq]
  intro hc
  subst hc
  simp at h

theorem digitComma_of_ne_comma {c : Char} (h : isDigitComma c = true) (hne : c ≠ ',') :
    isDigitPy c = true := by
  simp only [isDigitComma, Bool.or_eq_true, beq_iff_eq] at h
  rcases h with h | h
  · exact h
  · exact absurd h hne

theorem pat_of_scanFor {f : Chars → Option Chars} {t : Chars} {gs : MatchGroups} {g : Chars}
    (hpt : (scanFor f t).map (fun g => [some g]) = some gs)
    (hg : firstTruthyGroup gs = some g) : ∃ r, f r = some g := by
  cases hs : scanFor f t with
  | none =>
    rw [hs] at hpt
    cases hpt
  | some g0 =>
    rw [hs] at hpt
    simp only [Option.map_some'] at hpt
    cases hpt
    simp only [firstTruthyGroup] at hg
    by_cases h0 : g0.isEmpty
    · rw [if_pos h0] at hg
      simp [firstTruthyGroup] at hg
    · rw [if_neg h0] at hg
      cases hg
      exact scanFor_some hs

theorem pat_of_scanForB {f : Option Char → Chars → Option Chars} {t : Chars}
    {gs : MatchGroups} {g : Chars}
    (hpt : (scanForB f none t).map (fun g => [some g]) = some gs)
    (hg : firstTruthyGroup gs = some g) : ∃ pr r, f pr r = some g := by
  cases hs : scanForB f none t with
  | none =>
    rw [hs] at hpt
    cases hpt
  | some g0 =>
    rw [hs] at hpt
    simp only [Option.map_some'] at hpt
    cases hpt
    simp only [firstTruthyGroup] at hg
    by_cases h0 : g0.isEmpty
    · rw [if_pos h0] at hg
      simp [firstTruthyGroup] at hg
    · rw [if_neg h0] at hg
      cases hg
      exact scanForB_some hs

/-- Common shape of a group produced by the amount patterns. -/
def amountShapeP (g : Chars) : Prop :=
  ∃ run d1 d2, g = run ++ '.' :: [d1, d2] ∧ (∀ c ∈ run, isDigitComma c = true) ∧
    isDigitPy d1 = true ∧ isDigitPy d2 = true

theorem amountGroupAt_shape {t g : Chars} (h : amountGroupAt t = some g) : amountShapeP g := by
  simp only [amountGroupAt] at h
  split at h
  · cases h
  · split at h
    · split at h
      · rename_i c d1 d2 _ _ hcond
        simp only [Bool.and_eq_true, beq_iff_eq] at hcond
        obtain ⟨⟨rfl, h1⟩, h2⟩ := hcond
        cases h
        exact ⟨List.takeWhile isDigitComma t, d1, d2, rfl,
          fun c hc => List.mem_takeWhile_imp hc, h1, h2⟩
      · cases h
    · cases h

theorem amount_p1At_shape {r g : Chars} (h : amount_p1At r = some g) : amountShapeP g := by
  simp only [amount_p1At] at h
  split at h
  · cases h
  · exact amountGroupAt_shape h

theorem amount_p2At_shape {r g : Chars} (h : amount_p2At r = some g) : amountShapeP g := by
  simp only [amount_p2At] at h
  split at h
  · cases h
  · rename_i g0 hg0
    split at h
    · cases h
      exact amountGroupAt_shape hg0
    · cases h

theorem amount_p3At_shape {pr : Option Char} {r g : Chars} (h : amount_p3At pr r = some g) :
    amountShapeP g := by
  simp only [amount_p3At] at h
  split at h
  · cases h
  · split at h
    · split at h
      · cases h
      · split at h
        · split at h
          · rename_i d d1 d2 rest3 hdrop hcond
            simp only [Bool.and_eq_true, beq_iff_eq] at hcond
            obtain ⟨⟨⟨rfl, h1⟩, h2⟩, h3⟩ := hcond
            cases h
            exact ⟨_, d1, d2, rfl, fun c hc => List.mem_takeWhile_imp hc, h1, h2⟩
          · cases h
        · cases h
    · cases h

theorem amountShapeP_no_space {g : Chars} (hs : amountShapeP g) :
    ∀ c ∈ g, isSpacePy c = false := by
  rcases hs with ⟨run, d1, d2, rfl, hrun, h1, h2⟩
  intro c hc
  rcases List.mem_append.mp hc with hc | hc
  · exact digitComma_not_space (hrun c hc)
  · simp only [List.mem_cons, List.not_mem_nil, or_false] at hc
    rcases hc with rfl | rfl | rfl
    · decide
    · exact digit_not_space h1
    · exact digit_not_space h2

/-- Shape of every present _parse_amount result: an optional digit run, a
dot, exactly two digits, with all commas removed. -/
theorem parse_amount_shape_core {t a : Chars} (h : _parse_amount t = some a) :
    ∃ ds d1 d2, a = ds ++ '.' :: [d1, d2] ∧ (∀ c ∈ ds, isDigitPy c = true) ∧
      isDigitPy d1 = true ∧ isDigitPy d2 = true := by
  unfold _parse_amount at h
  cases hf : find_first_match t [amount_p1, amount_p2, amount_p3] with
  | none =>
    rw [hf] at h
    cases h
  | some r =>
    rw [hf] at h
    simp only [Option.some.injEq] at h
    obtain ⟨p, hp, gs, g, hpt, hg, hr⟩ := find_first_match_some hf
    have hshape : amountShapeP g := by
      simp only [List.mem_cons, List.not_mem_nil, or_false] at hp
      rcases hp with rfl | rfl | rfl
      · obtain ⟨r0, hr0⟩ := pat_of_scanFor hpt hg
        exact amount_p1At_shape hr0
      · obtain ⟨r0, hr0⟩ := pat_of_scanFor hpt hg
        exact amount_p2At_shape hr0
      · obtain ⟨pr, r0, hr0⟩ := pat_of_scanForB hpt hg
        exact amount_p3At_shape hr0
    have htrim : trimPy g = g := trimPy_no_space_eq (amountShapeP_no_space hshape)
    subst h
    rw [hr, htrim]
    rcases hshape with ⟨run, d1, d2, rfl, hrun, h1, h2⟩
    refine ⟨(run.filter (fun c => c != ',')), d1, d2, ?_, ?_, h1, h2⟩
    · rw [List.filter_append]
      congr 1
      simp only [List.filter_cons]
      rw [if_pos (by decide), if_pos (digit_ne_comma h1), if_pos (digit_ne_comma h2)]
      rfl
    · intro c hc
      rcases List.mem_filter.mp hc with ⟨hmem, hne⟩
      exact digitComma_of_ne_comma (hrun c hmem) (by simpa using hne)

/-! Claim theorems. -/

/-- Claim C1: for every nonempty input text parse_payment_slip returns the
full record, which carries no error key; for empty input it returns exactly
the error record. -/
theorem claim_C1 (nowYearAD : Nat) (t : Chars) :
    (t = [] → parse_payment_slip nowYearAD t = .err (S "ไม่มีข้อความให้")) ∧
    (t ≠ [] → ∃ s, parse_payment_slip nowYearAD t = .ok s) := by
  constructor
  · intro h
    subst h
    rfl
  · intro h
    have hne : ¬(t.isEmpty = true) := by simpa [List.isEmpty_iff] using h
    exact ⟨{ raw_text := t, bank := find_bank t, amount := _parse_amount t,
             date := _find_date nowYearAD t, time := _find_time t,
             sender := _clean_ocr_name (resolve_names t).1,
             recipient := _clean_ocr_name (resolve_names t).2,
             reference := refResolve t },
           by unfold parse_payment_slip; rw [if_neg hne]⟩

set_option maxRecDepth 8192 in
/-- Claim C1, witness: the two branches at the empty text and at a one
character text. -/
theorem claim_C1_witness :
    parse_payment_slip 2025 [] = .err (S "ไม่มีข้อความให้") ∧
    ∃ s, parse_payment_slip 2025 (S "ก") = .ok s :=
  ⟨(claim_C1 2025 []).1 rfl, (claim_C1 2025 (S "ก")).2 (by decide)⟩

theorem convertDMY_indep (n1 n2 : Nat) (dS mS yS : Chars) (h : ¬ yS.length ≤ 2) :
    convertDMY n1 dS mS yS = convertDMY n2 dS mS yS := by
  unfold convertDMY
  cases toNatPy dS <;> cases toNatPy yS <;> simp [h]

set_option maxRecDepth 8192 in
/-- Claim C3: the resolver returns the canonical Buddhist-form date 15 มกราคม
2567 unchanged, both alone and embedded in surrounding text, and resolves the
numeric form 15/01/2024 through the numeric fallback to day 15, month
มกราคม, year value 2024 (already Gregorian, so not converted). -/
theorem claim_C3 (nowYearAD : Nat) :
    _find_date nowYearAD (S "15 มกราคม 2567") = some (S "15 มกราคม 2567") ∧
    _find_date nowYearAD (S "สลิป 15 มกราคม 2567 เวลา") = some (S "15 มกราคม 2567") ∧
    monthYearSearch (S "15/01/2024") = none ∧
    _find_date nowYearAD (S "15/01/2024") = some (S "15 มกราคม 2024") := by
  refine ⟨?_, ?_, rfl, ?_⟩
  · have step : _find_date nowYearAD (S "15 มกราคม 2567") =
        finishDate nowYearAD (S "15") (S "มกราคม") (S "2567") := rfl
    rw [step]
    unfold finishDate
    rw [convertDMY_indep nowYearAD 2025 _ _ _ (by decide)]
    rfl
  · have step : _find_date nowYearAD (S "สลิป 15 มกราคม 2567 เวลา") =
        finishDate nowYearAD (S "15") (S "มกราคม") (S "2567") := rfl
    rw [step]
    unfold finishDate
    rw [convertDMY_indep nowYearAD 2025 _ _ _ (by decide)]
    rfl
  · have step : _find_date nowYearAD (S "15/01/2024") =
        finishDate nowYearAD (S "15") (S "01") (S "2024") := rfl
    rw [step]
    unfold finishDate
    rw [convertDMY_indep nowYearAD 2025 _ _ _ (by decide)]
    rfl

set_option maxRecDepth 8192 in
/-- Claim C7, counterexample: on the text จำนวนเงิน ,.50 the amount resolver
returns .50, which does not match the claimed anchored shape of one or more
digits, a dot and exactly two digits. -/
theorem claim_C7_counterexample :
    _parse_amount (S "จำนวนเงิน ,.50") = some (S ".50") ∧
    strictAmountShape (S ".50") = false := by
  exact ⟨rfl, rfl⟩

/-- Claim C7, amended: every present amount consists of zero or more digits,
a dot, and exactly two digits, with every comma removed; the digit run before
the dot can be empty because the comma run of the captured group can carry no
digit. -/
theorem claim_C7_amended (t a : Chars) (h : _parse_amount t = some a) :
    ∃ ds d1 d2, a = ds ++ '.' :: [d1, d2] ∧ (∀ c ∈ ds, isDigitPy c = true) ∧
      isDigitPy d1 = true ∧ isDigitPy d2 = true :=
  parse_amount_shape_core h

set_option maxRecDepth 8192 in
/-- Claim C7, witness: the amended shape at a concrete resolved amount. -/
theorem claim_C7_witness :
    ∃ ds d1 d2, S "1250.00" = ds ++ '.' :: [d1, d2] ∧ (∀ c ∈ ds, isDigitPy c = true) ∧
      isDigitPy d1 = true ∧ isDigitPy d2 = true :=
  claim_C7_amended (S "ยอดเงิน 1,250.00") (S "1250.00") (by decide)

/-- Claim C10: on every nonempty text the orchestrator terminates with a full
record, and each field equals its own resolver applied to the text, so the
failure of one resolver cannot abort another. -/
theorem claim_C10 (nowYearAD : Nat) (t : Chars) (h : t ≠ []) :
    ∃ s, parse_payment_slip nowYearAD t = .ok s ∧
      s.raw_text = t ∧ s.bank = find_bank t ∧ s.amount = _parse_amount t ∧
      s.date = _find_date nowYearAD t ∧ s.time = _find_time t ∧
      s.sender = _clean_ocr_name (resolve_names t).1 ∧
      s.recipient = _clean_ocr_name (resolve_names t).2 ∧
      s.reference = refResolve t := by
  have hne : ¬(t.isEmpty = true) := by simpa [List.isEmpty_iff] using h
  have heq : parse_payment_slip nowYearAD t =
      .ok { raw_text := t, bank := find_bank t, amount := _parse_amount t,
            date := _find_date nowYearAD t, time := _find_time t,
            sender := _clean_ocr_name (resolve_names t).1,
            recipient := _clean_ocr_name (resolve_names t).2,
            reference := refResolve t } := by
    unfold parse_payment_slip
    rw [if_neg hne]
  exact ⟨_, heq, rfl, rfl, rfl, rfl, rfl, rfl, rfl, rfl⟩

set_option maxRecDepth 8192 in
/-- Claim C10, witness: the totality and locality statement at a concrete
text. -/
theorem claim_C10_witness :
    ∃ s, parse_payment_slip 2025 (S "ก") = .ok s ∧
      s.raw_text = S "ก" ∧ s.bank = find_bank (S "ก") ∧ s.amount = _parse_amount (S "ก") ∧
      s.date = _find_date 2025 (S "ก") ∧ s.time = _find_time (S "ก") ∧
      s.sender = _clean_ocr_name (resolve_names (S "ก")).1 ∧
      s.recipient = _clean_ocr_name (resolve_names (S "ก")).2 ∧
      s.reference = refResolve (S "ก") :=
  claim_C10 2025 (S "ก") (by decide)

/-! Lemmas for the date resolver. -/

theorem mem_of_getLast? {α : Type} {l : List α} {a : α} (h : l.getLast? = some a) : a ∈ l := by
  cases l with
  | nil => simp at h
  | cons b r =>
    rw [List.getLast?_eq_getLast _ (by simp)] at h
    cases h
    exact List.getLast_mem _

theorem findDaysAux_shape (prev : Option Char) (t : Chars) :
    ∀ d ∈ findDaysAux prev t, d ≠ [] ∧ ∀ c ∈ d, isDigitPy c = true := by
  induction prev, t using findDaysAux.induct with
  | case1 => simp [findDaysAux]
  | case2 prev c bnd hcond =>
    intro d hd
    simp only [Bool.and_eq_true] at hcond
    simp only [findDaysAux] at hd
    split at hd
    · simp only [List.mem_singleton] at hd
      subst hd
      refine ⟨by simp, ?_⟩
      intro e he
      simp only [List.mem_singleton] at he
      subst he
      exact hcond.2
    · simp at hd
  | case3 prev c bnd hcond =>
    intro d hd
    simp only [findDaysAux] at hd
    split at hd
    · rename_i hgen
      exact absurd hgen hcond
    · simp at hd
  | case4 prev c c2 rest2 bnd h1 h2 ih =>
    intro d hd
    simp only [findDaysAux] at hd
    split at hd
    · rcases List.mem_cons.mp hd with rfl | hd
      · simp only [Bool.and_eq_true] at h1 h2
        refine ⟨by simp, ?_⟩
        intro e he
        simp only [List.mem_cons, List.not_mem_nil, or_false] at he
        rcases he with rfl | rfl
        · exact h1.2
        · exact h2.1
      · exact ih d hd
    · rename_i hco
      exact absurd h1 hco
  | case5 prev c c2 rest2 bnd h1 h2 h3 ih =>
    intro d hd
    simp only [findDaysAux] at hd
    split at hd
    · rcases List.mem_cons.mp hd with rfl | hd
      · simp only [Bool.and_eq_true] at h1
        refine ⟨by simp, ?_⟩
        intro e he
        simp only [List.mem_singleton] at he
        subst he
        exact h1.2
      · exact ih d hd
    · rename_i hco
      exact absurd h1 hco
  | case6 prev c c2 rest2 bnd h1 h2 h3 ih =>
    intro d hd
    simp only [findDaysAux] at hd
    split at hd
    · exact ih d hd
    · rename_i hco
      exact absurd h1 hco
  | case7 prev c c2 rest2 bnd h1 ih =>
    intro d hd
    simp only [findDaysAux] at hd
    split at hd
    · rename_i hco
      exact absurd hco h1
    · exact ih d hd

theorem findDays_shape (t : Chars) :
    ∀ d ∈ findDays t, d ≠ [] ∧ ∀ c ∈ d, isDigitPy c = true :=
  findDaysAux_shape none t

theorem monthYearAt_shape {t : Chars} {k y : Chars} (h : monthYearAt t = some (k, y)) :
    k ∈ monthKeys ∧ y ≠ [] ∧ ∀ c ∈ y, isDigitPy c = true := by
  simp only [monthYearAt] at h
  cases hf : firstAltCI monthKeys t with
  | none =>
    simp only [hf] at h
    exact Option.noConfusion h
  | some key =>
    simp only [hf] at h
    split at h
    · cases h
    · split at h
      · rename_i hlen
        simp only [Option.some.injEq, Prod.mk.injEq] at h
        obtain ⟨hk, hy⟩ := h
        subst hk
        subst hy
        refine ⟨List.mem_of_find?_eq_some hf, ?_, ?_⟩
        · intro hy
          rw [hy] at hlen
          simp at hlen
        · intro c hc
          exact List.mem_takeWhile_imp (List.mem_of_mem_take hc)
      · cases h

theorem monthYearSearchAux_shape (t acc : Chars) {b k y : Chars}
    (h : monthYearSearchAux acc t = some (b, k, y)) :
    k ∈ monthKeys ∧ y ≠ [] ∧ ∀ c ∈ y, isDigitPy c = true := by
  induction t generalizing acc with
  | nil =>
    simp only [monthYearSearchAux] at h
    cases hat : monthYearAt [] with
    | none =>
      simp only [hat] at h
      exact Option.noConfusion h
    | some ky =>
      obtain ⟨k0, y0⟩ := ky
      simp only [hat, Option.some.injEq, Prod.mk.injEq] at h
      obtain ⟨h1, h2, h3⟩ := h
      subst h2
      subst h3
      exact monthYearAt_shape hat
  | cons c rest ih =>
    simp only [monthYearSearchAux] at h
    cases hat : monthYearAt (c :: rest) with
    | none =>
      simp only [hat] at h
      exact ih _ h
    | some ky =>
      obtain ⟨k0, y0⟩ := ky
      simp only [hat, Option.some.injEq, Prod.mk.injEq] at h
      obtain ⟨h1, h2, h3⟩ := h
      subst h2
      subst h3
      exact monthYearAt_shape hat

theorem monthYearSearch_shape {t b k y : Chars} (h : monthYearSearch t = some (b, k, y)) :
    k ∈ monthKeys ∧ y ≠ [] ∧ ∀ c ∈ y, isDigitPy c = true :=
  monthYearSearchAux_shape t [] h

theorem numericDateAt_shape {t d m y : Chars} (h : numericDateAt t = some (d, m, y)) :
    (d ≠ [] ∧ ∀ c ∈ d, isDigitPy c = true) ∧ (m ≠ [] ∧ ∀ c ∈ m, isDigitPy c = true) ∧
      (y ≠ [] ∧ ∀ c ∈ y, isDigitPy c = true) := by
  unfold numericDateAt at h
  obtain ⟨dl, hdl, h⟩ := List.exists_of_findSome?_eq_some h
  dsimp only at h
  split at h
  · rename_i hdcond
    split at h
    · split at h
      · obtain ⟨ml, hml, h⟩ := List.exists_of_findSome?_eq_some h
        try dsimp only at h
        split at h
        · rename_i hmcond
          split at h
          · split at h
            · split at h
              · rename_i hylen
                simp only [Option.some.injEq, Prod.mk.injEq] at h
                obtain ⟨h1, h2, h3⟩ := h
                subst h1
                subst h2
                subst h3
                simp only [Bool.and_eq_true, beq_iff_eq, List.all_eq_true] at hdcond hmcond
                simp only [List.mem_cons, List.not_mem_nil, or_false] at hdl hml
                refine ⟨⟨?_, hdcond.2⟩, ⟨?_, hmcond.2⟩, ?_,
                  fun c hc => List.mem_takeWhile_imp (List.mem_of_mem_take hc)⟩
                · intro hnil
                  rw [hnil] at hdcond
                  simp only [List.length_nil] at hdcond
                  omega
                · intro hnil
                  rw [hnil] at hmcond
                  simp only [List.length_nil] at hmcond
                  omega
                · intro hnil
                  rw [hnil] at hylen
                  simp at hylen
              · cases h
            · cases h
          · cases h
        · cases h
      · cases h
    · cases h
  · cases h

theorem numericDateSearch_shape {t d m y : Chars} (h : numericDateSearch t = some (d, m, y)) :
    (d ≠ [] ∧ ∀ c ∈ d, isDigitPy c = true) ∧ (m ≠ [] ∧ ∀ c ∈ m, isDigitPy c = true) ∧
      (y ≠ [] ∧ ∀ c ∈ y, isDigitPy c = true) := by
  induction t with
  | nil => exact numericDateAt_shape h
  | cons c rest ih =>
    simp only [numericDateSearch] at h
    cases hat : numericDateAt (c :: rest) with
    | none =>
      rw [hat] at h
      exact ih h
    | some r =>
      rw [hat] at h
      cases h
      exact numericDateAt_shape hat

theorem finishDate_of_fail {nowY : Nat} {dS mS yS : Chars}
    (hc : convertDMY nowY dS mS yS = none) (hd : dS ≠ []) (hm : mS ≠ []) (hy : yS ≠ []) :
    finishDate nowY dS mS yS = some (dS ++ ' ' :: mS ++ ' ' :: yS) := by
  unfold finishDate
  rw [hc, if_pos]
  simp [List.isEmpty_iff, hd, hm, hy]

theorem finishDate_ne_none {nowY : Nat} {dS mS yS : Chars}
    (hd : dS ≠ []) (hm : mS ≠ []) (hy : yS ≠ []) : finishDate nowY dS mS yS ≠ none := by
  unfold finishDate
  cases hc : convertDMY nowY dS mS yS with
  | some s => simp
  | none =>
    rw [if_pos]
    · simp
    · simp [List.isEmpty_iff, hd, hm, hy]

theorem monthKeys_ne_nil : ∀ k ∈ monthKeys, k ≠ [] := by decide

/-- Claim C4, counterexample: the text มกราคม 2567 contains a month-year date
pattern, yet the resolver returns absent, because no standalone one- or
two-digit day number precedes the month; the claim allows absence only when
no date pattern is present at all. -/
theorem claim_C4_counterexample :
    datePatternPresent (S "มกราคม 2567") = true ∧
    _find_date 2025 (S "มกราคม 2567") = none :=
  ⟨rfl, rfl⟩

/-- Claim C4, amended: whenever day, month and year components have been
identified, by either phase, and the conversion fails, the resolver returns
the nonempty literal day month year concatenation; it returns absent exactly
when no date pattern is present or when a month-year pair was found with no
preceding day number. -/
theorem claim_C4_amended (nowY : Nat) (t : Chars) :
    (∀ before k y d, monthYearSearch t = some (before, k, y) →
        (findDays before).getLast? = some d → convertDMY nowY d k y = none →
        _find_date nowY t = some (d ++ ' ' :: k ++ ' ' :: y)) ∧
    (∀ d m y, monthYearSearch t = none → numericDateSearch t = some (d, m, y) →
        convertDMY nowY d m y = none →
        _find_date nowY t = some (d ++ ' ' :: m ++ ' ' :: y)) ∧
    (_find_date nowY t = none ↔
      (monthYearSearch t = none ∧ numericDateSearch t = none) ∨
      (∃ b k y, monthYearSearch t = some (b, k, y) ∧ findDays b = [])) := by
  refine ⟨?_, ?_, ?_⟩
  · intro before k y d hmy hday hconv
    simp only [_find_date, hmy, hday]
    exact finishDate_of_fail hconv (findDays_shape _ _ (mem_of_getLast? hday)).1
      (monthKeys_ne_nil _ (monthYearSearch_shape hmy).1) (monthYearSearch_shape hmy).2.1
  · intro d m y hmy hnum hconv
    simp only [_find_date, hmy, hnum]
    obtain ⟨⟨hd, _⟩, ⟨hm, _⟩, hy, _⟩ := numericDateSearch_shape hnum
    exact finishDate_of_fail hconv hd hm hy
  · cases hmy : monthYearSearch t with
    | some bky =>
      obtain ⟨b0, k0, y0⟩ := bky
      cases hfd : findDays b0 with
      | nil =>
        apply iff_of_true
        · simp only [_find_date, hmy, hfd, List.getLast?_nil]
        · exact Or.inr ⟨b0, k0, y0, rfl, hfd⟩
      | cons d0 ds =>
        apply iff_of_false
        · have hlast : (findDays b0).getLast? = some ((d0 :: ds).getLast (by simp)) := by
            rw [hfd]
            exact List.getLast?_eq_getLast _ (by simp)
          simp only [_find_date, hmy, hlast]
          have hmem : (d0 :: ds).getLast (by simp) ∈ findDays b0 := by
            rw [hfd]
            exact List.getLast_mem _
          exact finishDate_ne_none (findDays_shape _ _ hmem).1
            (monthKeys_ne_nil _ (monthYearSearch_shape hmy).1)
            (monthYearSearch_shape hmy).2.1
        · rintro (⟨h1, _⟩ | ⟨b, k, y, hsome, hnil⟩)
          · exact Option.noConfusion h1
          · simp only [Option.some.injEq, Prod.mk.injEq] at hsome
            obtain ⟨hb, _, _⟩ := hsome
            subst hb
            rw [hfd] at hnil
            cases hnil
    | none =>
      cases hnum : numericDateSearch t with
      | none =>
        apply iff_of_true
        · simp only [_find_date, hmy, hnum]
        · exact Or.inl ⟨rfl, rfl⟩
      | some dmy =>
        obtain ⟨d0, m0, y0⟩ := dmy
        apply iff_of_false
        · simp only [_find_date, hmy, hnum]
          obtain ⟨⟨hd, _⟩, ⟨hm, _⟩, hy, _⟩ := numericDateSearch_shape hnum
          exact finishDate_ne_none hd hm hy
        · rintro (⟨_, h2⟩ | ⟨b, k, y, hsome, _⟩)
          · exact Option.noConfusion h2
          · exact Option.noConfusion hsome

/-- Claim C4, witness: the amended fallback at the text 32 มกราคม 2567, whose
day 32 fails validation, producing the literal concatenation. -/
theorem claim_C4_witness :
    _find_date 2025 (S "32 มกราคม 2567") = some (S "32" ++ ' ' :: S "มกราคม" ++ ' ' :: S "2567") :=
  (claim_C4_amended 2025 (S "32 มกราคม 2567")).1 (S "32 ") (S "มกราคม") (S "2567") (S "32")
    (by decide) (by decide) (by decide)

/-- Claim C2, counterexample: with the compiled patterns of a followed by a
captured run of b, and of a captured c, on the text ac, the first pattern
matches with an empty group; the claimed behaviour yields absent, but
find_first_match falls through to the second pattern and returns c. -/
theorem claim_C2_counterexample :
    find_first_match (S "ac") [patAB, patC] = some (S "c") ∧
    find_first_match_claim (S "ac") [patAB, patC] = none :=
  ⟨rfl, rfl⟩

/-- Claim C2, amended: the patterns are evaluated in order and the first
pattern that matches with at least one nonempty captured group decides the
result, its first nonempty group returned stripped; a pattern that matches
with only empty or unmatched groups is skipped and later patterns are still
tried; the result is absent when no pattern yields a nonempty group. -/
theorem claim_C2_amended (t : Chars) (pats : List Pat) :
    find_first_match t pats = find_first_match_skipping t pats := by
  induction pats with
  | nil => rfl
  | cons p rest ih =>
    cases hp : p t with
    | none =>
      have l1 : find_first_match t (p :: rest) = find_first_match t rest := by
        simp only [find_first_match, hp]
      have l2 : find_first_match_skipping t (p :: rest) = find_first_match_skipping t rest := by
        simp only [find_first_match_skipping, List.findSome?_cons, hp]
      rw [l1, l2, ih]
    | some gs =>
      cases hg : firstTruthyGroup gs with
      | none =>
        have l1 : find_first_match t (p :: rest) = find_first_match t rest := by
          simp only [find_first_match, hp, hg]
        have l2 : find_first_match_skipping t (p :: rest) =
            find_first_match_skipping t rest := by
          simp only [find_first_match_skipping, List.findSome?_cons, hp, hg]
        rw [l1, l2, ih]
      | some g =>
        have l1 : find_first_match t (p :: rest) = some (trimPy g) := by
          simp only [find_first_match, hp, hg]
        have l2 : find_first_match_skipping t (p :: rest) = some (trimPy g) := by
          simp only [find_first_match_skipping, List.findSome?_cons, hp, hg, Option.map_some']
        rw [l1, l2]

/-! Lemmas for the bank resolver. -/

theorem azUp_snd_not_key : ∀ pr ∈ azUp, azUp.find? (fun p => p.1 == pr.2) = none := by decide

theorem upChar_upChar (c : Char) : upChar (upChar c) = upChar c := by
  cases hf : azUp.find? (fun p => p.1 == c) with
  | none =>
    have e : upChar c = c := by
      unfold upChar
      rw [hf]
    rw [e]
    exact e
  | some pr =>
    have e : upChar c = pr.2 := by
      unfold upChar
      rw [hf]
    rw [e]
    unfold upChar
    rw [azUp_snd_not_key pr (List.mem_of_find?_eq_some hf)]

theorem subList_iff {a b : Chars} : subList a b = true ↔ a <:+: b := by
  simp [subList]

theorem upChar_fixed_of_mem_map {c : Char} {v : Chars} (h : c ∈ v.map upChar) :
    upChar c = c := by
  obtain ⟨d, _, rfl⟩ := List.mem_map.mp h
  exact upChar_upChar d

theorem bankMatches_eq_CI {kws : List Chars} (hcov : coveringOK kws = true) (v : Chars) :
    bankMatches kws (v.map upChar) = bankMatchesCI kws (v.map upChar) := by
  unfold bankMatches bankMatchesCI
  rw [Bool.eq_iff_iff]
  simp only [List.any_eq_true]
  constructor
  · rintro ⟨k, hk, hsub⟩
    refine ⟨k, hk, ?_⟩
    have hfix : k.map upChar = k := by
      conv_rhs => rw [← List.map_id k]
      apply List.map_congr_left
      intro x hx
      exact upChar_fixed_of_mem_map ((subList_iff.mp hsub).subset hx)
    rw [hfix]
    exact hsub
  · rintro ⟨k, hk, hsub⟩
    simp only [coveringOK, List.all_eq_true, Bool.or_eq_true, decide_eq_true_eq,
      List.any_eq_true, Bool.and_eq_true] at hcov
    rcases hcov k hk with hfix | ⟨q, hq, hqfix, hqsub⟩
    · refine ⟨k, hk, ?_⟩
      rw [← hfix]
      exact hsub
    · refine ⟨q, hq, ?_⟩
      rw [subList_iff] at hqsub hsub ⊢
      exact hqsub.trans hsub

theorem find?_congr {α : Type} {p q : α → Bool} {l : List α} (h : ∀ a ∈ l, p a = q a) :
    l.find? p = l.find? q := by
  induction l with
  | nil => rfl
  | cons a rest ih =>
    rw [List.find?_cons, List.find?_cons, h a (List.mem_cons_self a rest)]
    cases q a with
    | true => rfl
    | false => exact ih (fun b hb => h b (List.mem_cons_of_mem a hb))

/-- Claim C5: bank resolution behaves exactly as the specification describes
it: the search window is the uppercased text before the first recipient
marker when one exists, the banks are tested in table order with any keyword
as a case-insensitive substring deciding, the whole text serves as fallback,
and nothing matching anywhere gives absent.  The equality holds because every
keyword that is not fixed by uppercasing is covered by an uppercase keyword
of the same bank. -/
theorem claim_C5 (t : Chars) : find_bank t = find_bank_spec t := by
  have hall : ∀ e ∈ bank_keywords, coveringOK e.2 = true := by decide
  have key : ∀ (v : Chars),
      bank_keywords.find? (fun e => bankMatches e.2 (v.map upChar)) =
        bank_keywords.find? (fun e => bankMatchesCI e.2 (v.map upChar)) :=
    fun v => find?_congr (fun e he => bankMatches_eq_CI (hall e he) v)
  unfold find_bank find_bank_spec
  cases hm : markerIdx t with
  | some i =>
    simp only [hm]
    rw [← List.map_take]
    rw [key (t.take i), key t]
  | none =>
    simp only [hm]
    rw [key t]

/-! Shape lemmas for the time resolver and the remaining record fields. -/

/-- Characters allowed in a time group. -/
def isTimeChar (c : Char) : Bool := isDigitPy c || c == ':'

theorem timeChar_not_space {c : Char} (h : isTimeChar c = true) : isSpacePy c = false := by
  simp only [isTimeChar, Bool.or_eq_true, beq_iff_eq] at h
  rcases h with h | h
  · exact digit_not_space h
  · subst h
    decide

theorem timeGroupAt_shape {r g : Chars} (h : timeGroupAt r = some g) :
    g ≠ [] ∧ ∀ c ∈ g, isTimeChar c = true := by
  unfold timeGroupAt at h
  obtain ⟨dl, hdl, h⟩ := List.exists_of_findSome?_eq_some h
  dsimp only at h
  split at h
  · rename_i hdcond
    simp only [Bool.and_eq_true, beq_iff_eq, List.all_eq_true] at hdcond
    split at h
    · split at h
      · rename_i hmcond
        simp only [Bool.and_eq_true, beq_iff_eq] at hmcond
        split at h
        · split at h
          · rename_i hscond
            simp only [Bool.and_eq_true, beq_iff_eq] at hscond
            cases h
            refine ⟨by simp, ?_⟩
            intro c hc
            rcases List.mem_append.mp hc with hc | hc
            · simp [isTimeChar, hdcond.2 c hc]
            · simp only [List.mem_cons, List.not_mem_nil, or_false] at hc
              rcases hc with rfl | rfl | rfl | rfl | rfl | rfl
              · simp [isTimeChar]
              · simp [isTimeChar, hmcond.1.2]
              · simp [isTimeChar, hmcond.2]
              · simp [isTimeChar]
              · simp [isTimeChar, hscond.1.2]
              · simp [isTimeChar, hscond.2]
          · cases h
            refine ⟨by simp, ?_⟩
            intro c hc
            rcases List.mem_append.mp hc with hc | hc
            · simp [isTimeChar, hdcond.2 c hc]
            · simp only [List.mem_cons, List.not_mem_nil, or_false] at hc
              rcases hc with rfl | rfl | rfl
              · simp [isTimeChar]
              · simp [isTimeChar, hmcond.1.2]
              · simp [isTimeChar, hmcond.2]
        · cases h
          refine ⟨by simp, ?_⟩
          intro c hc
          rcases List.mem_append.mp hc with hc | hc
          · simp [isTimeChar, hdcond.2 c hc]
          · simp only [List.mem_cons, List.not_mem_nil, or_false] at hc
            rcases hc with rfl | rfl | rfl
            · simp [isTimeChar]
            · simp [isTimeChar, hmcond.1.2]
            · simp [isTimeChar, hmcond.2]
      · cases h
    · cases h
  · cases h

theorem timeGroup22At_shape {r g : Chars} (h : timeGroup22At r = some g) :
    g ≠ [] ∧ ∀ c ∈ g, isTimeChar c = true := by
  unfold timeGroup22At at h
  split at h
  · split at h
    · rename_i hcond
      simp only [Bool.and_eq_true, beq_iff_eq] at hcond
      split at h
      · split at h
        · rename_i hscond
          simp only [Bool.and_eq_true, beq_iff_eq] at hscond
          cases h
          refine ⟨by simp, ?_⟩
          intro c hc
          simp only [List.mem_cons, List.not_mem_nil, or_false] at hc
          rcases hc with rfl | rfl | rfl | rfl | rfl | rfl | rfl | rfl
          · simp [isTimeChar, hcond.1.1.1.1]
          · simp [isTimeChar, hcond.1.1.1.2]
          · simp [isTimeChar]
          · simp [isTimeChar, hcond.1.2]
          · simp [isTimeChar, hcond.2]
          · simp [isTimeChar]
          · simp [isTimeChar, hscond.1.2]
          · simp [isTimeChar, hscond.2]
        · cases h
          refine ⟨by simp, ?_⟩
          intro c hc
          simp only [List.mem_cons, List.not_mem_nil, or_false] at hc
          rcases hc with rfl | rfl | rfl | rfl | rfl
          · simp [isTimeChar, hcond.1.1.1.1]
          · simp [isTimeChar, hcond.1.1.1.2]
          · simp [isTimeChar]
          · simp [isTimeChar, hcond.1.2]
          · simp [isTimeChar, hcond.2]
      · cases h
        refine ⟨by simp, ?_⟩
        intro c hc
        simp only [List.mem_cons, List.not_mem_nil, or_false] at hc
        rcases hc with rfl | rfl | rfl | rfl | rfl
        · simp [isTimeChar, hcond.1.1.1.1]
        · simp [isTimeChar, hcond.1.1.1.2]
        · simp [isTimeChar]
        · simp [isTimeChar, hcond.1.2]
        · simp [isTimeChar, hcond.2]
    · cases h
  · cases h

theorem time_p0At_shape {r g : Chars} (h : time_p0At r = some g) :
    g ≠ [] ∧ ∀ c ∈ g, isTimeChar c = true := by
  unfold time_p0At at h
  obtain ⟨dl, hdl, h⟩ := List.exists_of_findSome?_eq_some h
  dsimp only at h
  split at h
  · split at h
    · cases h
    · split at h
      · cases h
      · split at h
        · cases h
        · split at h
          · cases h
          · split at h
            · cases h
            · exact timeGroupAt_shape h
  · cases h

theorem time_p1At_shape {r g : Chars} (h : time_p1At r = some g) :
    g ≠ [] ∧ ∀ c ∈ g, isTimeChar c = true := by
  unfold time_p1At at h
  split at h
  · cases h
  · exact timeGroup22At_shape h

theorem time_p2At_shape {pr : Option Char} {r g : Chars} (h : time_p2At pr r = some g) :
    g ≠ [] ∧ ∀ c ∈ g, isTimeChar c = true := by
  unfold time_p2At at h
  split at h
  · split at h
    · rename_i hcond
      simp only [Bool.and_eq_true, beq_iff_eq] at hcond
      obtain ⟨⟨⟨⟨⟨⟨⟨⟨⟨hpw, hh1⟩, hh2⟩, hcc⟩, hm1⟩, hm2⟩, hc2⟩, hs1⟩, hs2⟩, hnw⟩ := hcond
      cases h
      refine ⟨by simp, ?_⟩
      intro c hc
      simp only [List.mem_cons, List.not_mem_nil, or_false] at hc
      rcases hc with rfl | rfl | rfl | rfl | rfl | rfl | rfl | rfl
      · simp [isTimeChar, hh1]
      · simp [isTimeChar, hh2]
      · simp [isTimeChar]
      · simp [isTimeChar, hm1]
      · simp [isTimeChar, hm2]
      · simp [isTimeChar]
      · simp [isTimeChar, hs1]
      · simp [isTimeChar, hs2]
    · cases h
  · cases h

theorem time_p3At_shape {pr : Option Char} {r g : Chars} (h : time_p3At pr r = some g) :
    g ≠ [] ∧ ∀ c ∈ g, isTimeChar c = true := by
  unfold time_p3At at h
  split at h
  · cases h
  · obtain ⟨dl, hdl, h⟩ := List.exists_of_findSome?_eq_some h
    dsimp only at h
    split at h
    · rename_i hdcond
      simp only [Bool.and_eq_true, beq_iff_eq, List.all_eq_true] at hdcond
      split at h
      · split at h
        · rename_i hcond
          simp only [Bool.and_eq_true, beq_iff_eq] at hcond
          cases h
          refine ⟨by simp, ?_⟩
          intro c hc
          rcases List.mem_append.mp hc with hc | hc
          · simp [isTimeChar, hdcond.2 c hc]
          · simp only [List.mem_cons, List.not_mem_nil, or_false] at hc
            rcases hc with rfl | rfl | rfl
            · simp [isTimeChar]
            · simp [isTimeChar, hcond.1.1.2]
            · simp [isTimeChar, hcond.1.2]
        · cases h
      · cases h
    · cases h

theorem find_time_shape {t s : Chars} (h : _find_time t = some s) :
    s ≠ [] ∧ trimPy s = s := by
  unfold _find_time at h
  cases hp0 : scanFor time_p0At t with
  | some g =>
    simp only [hp0, Option.some.injEq] at h
    subst h
    obtain ⟨r, hr⟩ := scanFor_some hp0
    obtain ⟨hne, hchars⟩ := time_p0At_shape hr
    exact ⟨hne, trimPy_no_space_eq (fun c hc => timeChar_not_space (hchars c hc))⟩
  | none =>
    simp only [hp0] at h
    obtain ⟨p, hp, gs, g, hpt, hg, ha⟩ := find_first_match_some h
    simp only [List.mem_cons, List.not_mem_nil, or_false] at hp
    have hshape : g ≠ [] ∧ ∀ c ∈ g, isTimeChar c = true := by
      rcases hp with rfl | rfl | rfl
      · obtain ⟨r, hr⟩ := pat_of_scanFor hpt hg
        exact time_p1At_shape hr
      · obtain ⟨pr, r, hr⟩ := pat_of_scanForB hpt hg
        exact time_p2At_shape hr
      · obtain ⟨pr, r, hr⟩ := pat_of_scanForB hpt hg
        exact time_p3At_shape hr
    have htrim : trimPy g = g :=
      trimPy_no_space_eq (fun c hc => timeChar_not_space (hshape.2 c hc))
    subst ha
    rw [htrim]
    exact ⟨hshape.1, by rw [htrim]⟩

/-! Shape lemmas for the date, bank, reference and name fields. -/

theorem mem_of_head? {α : Type} {l : List α} {a : α} (h : l.head? = some a) : a ∈ l := by
  cases l with
  | nil => exact Option.noConfusion h
  | cons b r =>
    simp only [List.head?_cons, Option.some.injEq] at h
    subst h
    exact List.mem_cons_self b r

theorem digitChar_mem (n : Nat) : digitChar n ∈ digitChars := by
  unfold digitChar
  match n with
  | 0 => decide
  | 1 => decide
  | 2 => decide
  | 3 => decide
  | 4 => decide
  | 5 => decide
  | 6 => decide
  | 7 => decide
  | 8 => decide
  | 9 => decide
  | n + 10 =>
    simp only [digitChars, List.getD_cons_succ, List.getD_nil]
    decide

theorem digitChars_digit : ∀ c ∈ digitChars, isDigitPy c = true := by decide

theorem digitChar_digit (n : Nat) : isDigitPy (digitChar n) = true :=
  digitChars_digit _ (digitChar_mem n)

theorem natReprFuel_digits : ∀ fuel n : Nat, ∀ acc : Chars,
    (∀ c ∈ acc, isDigitPy c = true) → ∀ c ∈ natReprFuel fuel n acc, isDigitPy c = true := by
  intro fuel
  induction fuel with
  | zero => intro n acc hacc; exact hacc
  | succ fuel ih =>
    intro n acc hacc c hc
    simp only [natReprFuel] at hc
    split at hc
    · rcases List.mem_cons.mp hc with rfl | hc
      · exact digitChar_digit n
      · exact hacc c hc
    · refine ih (n / 10) _ ?_ c hc
      intro c2 hc2
      rcases List.mem_cons.mp hc2 with rfl | hc2
      · exact digitChar_digit (n % 10)
      · exact hacc c2 hc2

theorem natReprFuel_ne_nil : ∀ fuel n : Nat, ∀ acc : Chars, acc ≠ [] →
    natReprFuel fuel n acc ≠ [] := by
  intro fuel
  induction fuel with
  | zero => intro n acc h; exact h
  | succ fuel ih =>
    intro n acc h
    simp only [natReprFuel]
    split
    · simp
    · exact ih (n / 10) _ (by simp)

theorem natRepr_ne_nil (n : Nat) : natRepr n ≠ [] := by
  unfold natRepr
  simp only [natReprFuel]
  split
  · simp
  · exact natReprFuel_ne_nil n (n / 10) _ (by simp)

theorem natRepr_digits (n : Nat) : ∀ c ∈ natRepr n, isDigitPy c = true :=
  natReprFuel_digits (n + 1) n [] (by simp)

theorem sandwich_shape {D M R : Chars} (hD : D ≠ []) (hR : R ≠ [])
    (hd : ∀ c, D.head? = some c → isSpacePy c = false)
    (hr : ∀ c, R.getLast? = some c → isSpacePy c = false) :
    D ++ ' ' :: M ++ ' ' :: R ≠ [] ∧
      trimPy (D ++ ' ' :: M ++ ' ' :: R) = D ++ ' ' :: M ++ ' ' :: R := by
  constructor
  · simp
  · apply trimPy_eq_self_of_edges
    · intro c hc
      obtain ⟨d0, D2, rfl⟩ := List.exists_cons_of_ne_nil hD
      simp only [List.cons_append, List.head?_cons, Option.some.injEq] at hc
      subst hc
      exact hd d0 rfl
    · intro c hc
      have hsplit : D ++ ' ' :: M ++ ' ' :: R
          = (D ++ ' ' :: M ++ ' ' :: R.dropLast) ++ [R.getLast hR] := by
        conv_lhs => rw [← List.dropLast_append_getLast hR]
        simp
      rw [hsplit, List.getLast?_concat] at hc
      simp only [Option.some.injEq] at hc
      subst hc
      exact hr _ (List.getLast?_eq_getLast R hR)

set_option maxRecDepth 8192 in
theorem convertDMY_shape {nowY : Nat} {dS mS yS s : Chars}
    (h : convertDMY nowY dS mS yS = some s) : s ≠ [] ∧ trimPy s = s := by
  simp only [convertDMY] at h
  iterate 10 all_goals try (first | exact Option.noConfusion h | split at h)
  all_goals
    simp only [Option.some.injEq] at h
    subst h
    exact sandwich_shape (natRepr_ne_nil _) (natRepr_ne_nil _)
      (fun c hc => digit_not_space (natRepr_digits _ c (mem_of_head? hc)))
      (fun c hc => digit_not_space (natRepr_digits _ c (mem_of_getLast? hc)))

theorem finishDate_shape {nowY : Nat} {dS mS yS s : Chars}
    (h : finishDate nowY dS mS yS = some s) (hd : dS ≠ []) (hy : yS ≠ [])
    (hdh : ∀ c, dS.head? = some c → isSpacePy c = false)
    (hyl : ∀ c, yS.getLast? = some c → isSpacePy c = false) :
    s ≠ [] ∧ trimPy s = s := by
  unfold finishDate at h
  cases hc : convertDMY nowY dS mS yS with
  | some s0 =>
    simp only [hc, Option.some.injEq] at h
    subst h
    exact convertDMY_shape hc
  | none =>
    simp only [hc] at h
    split at h
    · simp only [Option.some.injEq] at h
      subst h
      exact sandwich_shape hd hy hdh hyl
    · exact Option.noConfusion h

theorem find_date_shape {nowY : Nat} {t s : Chars} (h : _find_date nowY t = some s) :
    s ≠ [] ∧ trimPy s = s := by
  unfold _find_date at h
  cases hm : monthYearSearch t with
  | none =>
    simp only [hm] at h
    cases hn : numericDateSearch t with
    | none =>
      simp only [hn] at h
      exact Option.noConfusion h
    | some r =>
      obtain ⟨d, m, y⟩ := r
      simp only [hn] at h
      obtain ⟨⟨hdne, hdd⟩, _, hyne, hyd⟩ := numericDateSearch_shape hn
      refine finishDate_shape h hdne hyne ?_ ?_
      · intro c hc
        exact digit_not_space (hdd c (mem_of_head? hc))
      · intro c hc
        exact digit_not_space (hyd c (mem_of_getLast? hc))
  | some r =>
    obtain ⟨before, mKey, y⟩ := r
    simp only [hm] at h
    cases hl : (findDays before).getLast? with
    | none =>
      simp only [hl] at h
      exact Option.noConfusion h
    | some d =>
      simp only [hl] at h
      obtain ⟨hmem, hyne, hyd⟩ := monthYearSearch_shape hm
      obtain ⟨hdne, hdd⟩ := findDays_shape before d (mem_of_getLast? hl)
      refine finishDate_shape h hdne hyne ?_ ?_
      · intro c hc
        exact digit_not_space (hdd c (mem_of_head? hc))
      · intro c hc
        exact digit_not_space (hyd c (mem_of_getLast? hc))

theorem find_bank_mem {t b : Chars} (h : find_bank t = some b) :
    ∃ e ∈ bank_keywords, b = e.1 := by
  simp only [find_bank] at h
  split at h
  · rename_i e he
    simp only [Option.some.injEq] at h
    subst h
    exact ⟨e, List.mem_of_find?_eq_some he, rfl⟩
  · rw [Option.map_eq_some'] at h
    obtain ⟨e, he, hb⟩ := h
    exact ⟨e, List.mem_of_find?_eq_some he, hb.symm⟩

theorem bank_keywords_shape : ∀ e ∈ bank_keywords, e.1 ≠ [] ∧ trimPy e.1 = e.1 := by decide

theorem find_bank_shape {t b : Chars} (h : find_bank t = some b) : b ≠ [] ∧ trimPy b = b := by
  obtain ⟨e, he, rfl⟩ := find_bank_mem h
  exact bank_keywords_shape e he

theorem parse_amount_shape {t a : Chars} (h : _parse_amount t = some a) :
    a ≠ [] ∧ trimPy a = a := by
  obtain ⟨ds, d1, d2, rfl, hds, h1, h2⟩ := parse_amount_shape_core h
  refine ⟨by simp, trimPy_no_space_eq ?_⟩
  intro c hc
  rcases List.mem_append.mp hc with hc | hc
  · exact digit_not_space (hds c hc)
  · simp only [List.mem_cons, List.not_mem_nil, or_false] at hc
    rcases hc with rfl | rfl | rfl
    · decide
    · exact digit_not_space h1
    · exact digit_not_space h2

theorem refResolve_shape {t r : Chars} (h : refResolve t = some r) :
    r ≠ [] ∧ trimPy r = r ∧ ' ' ∉ r := by
  unfold refResolve at h
  cases hf : find_first_match t [ref_p1, ref_p2] with
  | none =>
    simp only [hf] at h
    exact Option.noConfusion h
  | some g =>
    simp only [hf] at h
    split at h
    · exact Option.noConfusion h
    · rename_i hne
      simp only [Option.some.injEq] at h
      subst h
      obtain ⟨p, hp, gs, g0, hpt, hg0, hgeq⟩ := find_first_match_some hf
      have hgne : g ≠ [] := by
        intro hcon
        subst hcon
        exact hne rfl
      obtain ⟨c, grest, rfl⟩ := List.exists_cons_of_ne_nil hgne
      have hchead : isSpacePy c = false := by
        apply trimPy_head_not_space (l := g0)
        rw [← hgeq]
        exact List.head?_cons
      have hcne : c ≠ ' ' := by
        intro hcon
        rw [hcon] at hchead
        exact absurd hchead (by decide)
      obtain ⟨lc, hgl⟩ : ∃ lc, (c :: grest).getLast? = some lc :=
        ⟨_, List.getLast?_eq_getLast (c :: grest) (by simp)⟩
      have hlspace : isSpacePy lc = false := by
        apply trimPy_getLast_not_space (l := g0)
        rw [← hgeq]
        exact hgl
      have hlne : lc ≠ ' ' := by
        intro hcon
        rw [hcon] at hlspace
        exact absurd hlspace (by decide)
      have hfhead : List.filter (fun x => x != ' ') (c :: grest)
          = c :: List.filter (fun x => x != ' ') grest := by
        simp [List.filter_cons, hcne]
      have hflast : List.filter (fun x => x != ' ') (c :: grest)
          = List.filter (fun x => x != ' ') (c :: grest).dropLast ++ [lc] := by
        have h2 := List.getLast?_eq_getLast (c :: grest) (by simp)
        rw [hgl] at h2
        simp only [Option.some.injEq] at h2
        conv_lhs => rw [← List.dropLast_append_getLast (l := c :: grest) (by simp)]
        rw [List.filter_append, ← h2]
        simp [List.filter_cons, hlne]
      refine ⟨?_, ?_, ?_⟩
      · rw [hfhead]
        simp
      · apply trimPy_eq_self_of_edges
        · intro x hx
          rw [hfhead] at hx
          simp only [List.head?_cons, Option.some.injEq] at hx
          subst hx
          exact hchead
        · intro x hx
          rw [hflast, List.getLast?_concat] at hx
          simp only [Option.some.injEq] at hx
          subst hx
          exact hlspace
      · intro hsp
        have hmem := List.of_mem_filter hsp
        simp at hmem

theorem clean_name_trim {x : Option Chars} {n : Chars} (h : _clean_ocr_name x = some n) :
    trimPy n = n := by
  cases x with
  | none => exact Option.noConfusion h
  | some name =>
    simp only [_clean_ocr_name] at h
    split at h
    · exact Option.noConfusion h
    · simp only [Option.some.injEq] at h
      subst h
      exact trimPy_trimPy _

theorem namesGo_nodup : ∀ lines found : List Chars, found.Nodup → (namesGo lines found).Nodup := by
  intro lines
  induction lines with
  | nil => intro found h; exact h
  | cons line rest ih =>
    intro found h
    simp only [namesGo]
    split
    · exact ih found h
    · split
      · exact ih found h
      · split
        · split
          · exact ih found h
          · split
            · rename_i hcond
              simp only [Bool.and_eq_true] at hcond
              apply ih
              rw [List.nodup_append]
              refine ⟨h, List.nodup_singleton _, ?_⟩
              intro a ha hmem
              rw [List.mem_singleton] at hmem
              subst hmem
              have hnc := hcond.2
              simp_all
            · exact ih found h
        · exact ih found h

theorem names_nodup (t : Chars) : (_find_names_by_account_number t).Nodup :=
  namesGo_nodup (splitLines t) [] List.nodup_nil

set_option maxRecDepth 8192 in
/-- Claim C6, counterexample: in this slip the keyword strategy resolves the
sender to สมชาย while the recipient stays unresolved; the code nevertheless
invokes the positional strategy and fills the recipient with the second
candidate นายโท มีสุข, whereas under the claim the positional strategy runs
only when both roles are unresolved, so the recipient would stay absent. -/
theorem claim_C6_counterexample :
    resolve_names (S "จาก สมชาย\nนายเอก อยู่ดี\n1234567890\nนายโท มีสุข\n9876543210") =
      (some (S "สมชาย"), some (S "นายโท มีสุข")) ∧
    resolve_names_claim (S "จาก สมชาย\nนายเอก อยู่ดี\n1234567890\nนายโท มีสุข\n9876543210") =
      (some (S "สมชาย"), none) :=
  ⟨rfl, rfl⟩

/-- Claim C6, amended: the positional strategy is consulted whenever at least
one role is unresolved; each unresolved role is filled from its positional
candidate, the first for the sender and the second for the recipient, while a
role already resolved keeps its keyword or standalone value; the candidate
list is deduplicated. -/
theorem claim_C6_amended (t : Chars) :
    ((resolve_names t).1 =
      if pyTruthy (resolveSender0 t) then resolveSender0 t
      else
        match (_find_names_by_account_number t)[0]? with
        | some n => some n
        | none => resolveSender0 t) ∧
    ((resolve_names t).2 =
      if pyTruthy (resolveRecipient0 t) then resolveRecipient0 t
      else
        match (_find_names_by_account_number t)[1]? with
        | some n => some n
        | none => resolveRecipient0 t) ∧
    (_find_names_by_account_number t).Nodup := by
  refine ⟨?_, ?_, names_nodup t⟩
  all_goals
    simp only [resolve_names]
    cases hs : pyTruthy (resolveSender0 t) <;>
      cases hr : pyTruthy (resolveRecipient0 t) <;>
        simp [hs, hr]

set_option maxRecDepth 8192 in
/-- Claim C8, counterexample: on this slip the reference keyword pattern
captures a group containing a newline; only the space character U+0020 is
removed from the captured group, so the returned reference field contains a
whitespace character, contradicting the claim that the reference contains no
whitespace of any kind. -/
theorem claim_C8_counterexample :
    parse_payment_slip 2025 (S "Ref AB\nCD") =
      .ok { raw_text := S "Ref AB\nCD", bank := none, amount := none, date := none,
            time := none, sender := none, recipient := none,
            reference := some (S "AB\nCD") } ∧
    (S "AB\nCD").any isSpacePy = true :=
  ⟨rfl, rfl⟩

/-- Claim C8, amended: a present reference value is nonempty and contains no
space character U+0020; other whitespace characters may remain. -/
theorem claim_C8_amended (t r : Chars) (h : refResolve t = some r) :
    ' ' ∉ r ∧ r ≠ [] :=
  ⟨(refResolve_shape h).2.2, (refResolve_shape h).1⟩

set_option maxRecDepth 8192 in
/-- Claim C8, witness: on a slip whose reference group contains interior
spaces, the amended theorem applies and the returned reference AB123 has no
space and is nonempty. -/
theorem claim_C8_witness : ' ' ∉ S "AB123" ∧ S "AB123" ≠ [] :=
  claim_C8_amended (S "อ้างอิง A B 123") (S "AB123") rfl

set_option maxRecDepth 8192 in
/-- Claim C9, counterexample: on this slip the sender name is reduced to the
empty string by _clean_ocr_name, and the record carries sender as a present
empty string, contradicting the claim that every present optional field is
nonempty. -/
theorem claim_C9_counterexample :
    parse_payment_slip 2025 (S "จาก อ") =
      .ok { raw_text := S "จาก อ", bank := none, amount := none, date := none, time := none,
            sender := some [], recipient := none, reference := none } := rfl

/-- Claim C9, amended: in every parsed record the bank, amount, date, time and
reference fields are, when present, nonempty and trimmed; the sender and
recipient fields are, when present, trimmed but possibly empty. -/
theorem claim_C9_amended (nowY : Nat) (text : Chars) (s : Slip)
    (h : parse_payment_slip nowY text = .ok s) :
    (∀ b, s.bank = some b → b ≠ [] ∧ trimPy b = b) ∧
    (∀ a, s.amount = some a → a ≠ [] ∧ trimPy a = a) ∧
    (∀ d, s.date = some d → d ≠ [] ∧ trimPy d = d) ∧
    (∀ x, s.time = some x → x ≠ [] ∧ trimPy x = x) ∧
    (∀ r, s.reference = some r → r ≠ [] ∧ trimPy r = r) ∧
    (∀ n, s.sender = some n → trimPy n = n) ∧
    (∀ n, s.recipient = some n → trimPy n = n) := by
  unfold parse_payment_slip at h
  split at h
  · exact ParseResult.noConfusion h
  · simp only [ParseResult.ok.injEq] at h
    subst h
    refine ⟨?_, ?_, ?_, ?_, ?_, ?_, ?_⟩
    · intro b hb
      exact find_bank_shape hb
    · intro a ha
      exact parse_amount_shape ha
    · intro d hd
      exact find_date_shape hd
    · intro x hx
      exact find_time_shape hx
    · intro r hr
      obtain ⟨h1, h2, h3⟩ := refResolve_shape hr
      exact ⟨h1, h2⟩
    · intro n hn
      exact clean_name_trim hn
    · intro n hn
      exact clean_name_trim hn

set_option maxRecDepth 8192 in
/-- Claim C9, witness: the amended theorem applied to a concrete slip whose
amount field is present shows the returned amount 1250.00 nonempty and
trimmed. -/
theorem claim_C9_witness :
    S "1250.00" ≠ [] ∧ trimPy (S "1250.00") = S "1250.00" :=
  (claim_C9_amended 2025 (S "ยอดเงิน 1,250.00")
      { raw_text := S "ยอดเงิน 1,250.00", bank := none, amount := some (S "1250.00"),
        date := none, time := none, sender := none, recipient := none, reference := none }
      rfl).2.1 (S "1250.00") rfl

end Ocr

